import Mathlib

/-!
# Verification of the britt-marie state store

A shallow embedding of the modification-aware open-addressed hash index
(`src/index/hash/table.rs`, `src/index/hash/mod.rs`), the single-value index
(`src/index/value/mod.rs`) and the durable-store adapter
(`src/raw_store/rocks/mod.rs`), together with proofs and refutations of the
specified properties.

Modelling conventions:
* Machine bytes and counters are `Nat`.  `usize`/`u64` arithmetic that can wrap
  in release builds (`wrapping_sub`, the `+= 1` on counters) is modelled with an
  explicit `% 2 ^ 64`; `saturating_sub` is Rust's saturating subtraction, which
  coincides with `Nat` subtraction.
* The control, meta and bucket regions are `List`s indexed with `getD`; reads
  the Rust code can only reach past initialised memory in states excluded by
  the theorems' hypotheses return the `getD` default.
* Panicking paths (`unreachable!()`, `panic!`, and the `lowest_set_bit_nonzero`
  precondition violation) are modelled by `Option`/`none` propagation.
* The SIMD group/bitmask layer (`sse2.rs`, `bitmask.rs`) and `WriteMode::is_lazy`
  are code of the repository that is not present under `src/`; those definitions
  are modelled from the spec and marked as such in their doc comments.
* The hasher (`fxhash`, an external crate) is an opaque parameter `hashFn`.
-/

set_option maxRecDepth 2000

namespace BrittMarie

/-- SIMD group width: 16 on SSE2 targets (`hash/mod.rs` insists on sse2). -/
def groupWidth : Nat := 16

/-- `2 ^ 64`, the modulus of `usize`/`u64` arithmetic on the 64-bit target. -/
def U64 : Nat := 2 ^ 64

/-- `a.wrapping_sub c` on a 64-bit unsigned integer (`a < 2^64`, `c ≤ 2^64`). -/
def wrapSub (a c : Nat) : Nat := (a + (U64 - c)) % U64

/-- A `+= 1` on a `usize` counter (wraps at `2 ^ 64`). -/
def incr (x : Nat) : Nat := (x + 1) % U64

/-- Control byte value for an empty bucket (`0b1111_1111`). -/
def EMPTY : Nat := 0xff

/-- Control byte value for a deleted bucket (`0b1000_0000`). -/
def DELETED : Nat := 0x80

/-- Meta byte value for a modified bucket (`0b1000_0000`). -/
def MODIFIED : Nat := 0x80

/-- Meta byte value for a modified bucket that has also been read (`0b1100_0000`). -/
def MODIFIED_TOUCHED : Nat := 0xc0

/-- Meta byte value for a safe bucket (`0b0000_0000`). -/
def SAFE : Nat := 0x00

/-- Meta byte value for a safe bucket that has been read (`0b0100_0000`). -/
def SAFE_TOUCHED : Nat := 0x40

/-- `is_full`: the control byte's top bit is clear. -/
def isFull (c : Nat) : Bool := c &&& 0x80 == 0

/-- `is_special`: the control byte's top bit is set. -/
def isSpecial (c : Nat) : Bool := c &&& 0x80 != 0

/-- `special_is_empty` (release semantics: just tests bit 0). -/
def specialIsEmpty (c : Nat) : Bool := c &&& 0x01 != 0

/-- `is_modified`: the meta byte's top bit is set. -/
def isModified (m : Nat) : Bool := m &&& 0x80 != 0

/-- `is_safe`: the meta byte's top bit is clear. -/
def isSafe (m : Nat) : Bool := m &&& 0x80 == 0

/-- `h1`: the primary hash, `hash as usize` on the 64-bit target. -/
def h1 (hash : Nat) : Nat := hash % U64

/-- `h2`: the secondary hash, the top 7 bits of the 64-bit hash. -/
def h2 (hash : Nat) : Nat := ((hash % U64) >>> 57) &&& 0x7f

/-- Modelled from the spec: `sse2.rs` is not under `src/`.  `Group::load` reads
a window of `groupWidth` consecutive control/meta bytes starting at `i`
(the trailing replicated group makes every such unaligned read defined). -/
def groupLoad (bytes : List Nat) (i : Nat) : List Nat :=
  (List.range groupWidth).map (fun j => bytes.getD (i + j) 0)

/-- Modelled from the spec: `sse2.rs`/`bitmask.rs` are not under `src/`.
`Group::match_byte b` flags each byte of the window equal to `b`; the result
stands for the movemask bitmask, bit `j` for byte `j`. -/
def matchByte (g : List Nat) (b : Nat) : List Bool := g.map (fun c => c == b)

/-- Modelled from the spec: flags the `EMPTY` bytes of a group. -/
def matchEmpty (g : List Nat) : List Bool := matchByte g EMPTY

/-- Modelled from the spec: flags the bytes with the top bit set
(`EMPTY` or `DELETED` for control bytes). -/
def matchEmptyOrDeleted (g : List Nat) : List Bool := g.map (fun c => c &&& 0x80 != 0)

/-- Modelled from the spec: flags the meta bytes that are `MODIFIED` or
`MODIFIED_TOUCHED` (top bit set) — the buckets yielded by `iter_modified`. -/
def matchModified (g : List Nat) : List Bool := g.map (fun c => c &&& 0x80 != 0)

/-- Modelled from the spec: `BitMask::lowest_set_bit` — the index of the first
set bit of the movemask, if any. -/
def lowestSetBit (m : List Bool) : Option Nat :=
  match m with
  | [] => none
  | b :: rest => if b then some 0 else (lowestSetBit rest).map (· + 1)

/-- Modelled from the spec: `BitMask::leading_zeros` — the number of
consecutive clear bits at the high (group-end) side of the mask. -/
def leadingZeros (m : List Bool) : Nat := (m.reverse.takeWhile (fun b => !b)).length

/-- Modelled from the spec: `BitMask::trailing_zeros` — the number of
consecutive clear bits at the low (group-start) side of the mask. -/
def trailingZeros (m : List Bool) : Nat := (m.takeWhile (fun b => !b)).length

/-! ## Probe sequence (`ProbeSeq`, table.rs:145-166) -/

/-- One step of `ProbeSeq::next`: the iterator stops once `stride >= bucket_mask`,
otherwise yields `pos`, then sets `stride += Group::WIDTH; pos += stride;
pos &= bucket_mask`.  `fuel` only bounds the recursion; `probeSeq` passes enough
fuel that the stride test is what terminates the sequence. -/
def probeAux (bucketMask : Nat) (pos stride fuel : Nat) : List Nat :=
  match fuel with
  | 0 => []
  | fuel + 1 =>
    if bucketMask ≤ stride then []
    else
      pos :: probeAux bucketMask ((pos + (stride + groupWidth)) &&& bucketMask)
        (stride + groupWidth) fuel

/-- The full probe sequence for a hash (`RawTable::probe_seq`):
start at `h1(hash) & bucket_mask` with stride 0. -/
def probeSeq (bucketMask hash : Nat) : List Nat :=
  probeAux bucketMask (h1 hash &&& bucketMask) 0 (bucketMask / groupWidth + 1)

/-- The `k`-th triangular number — after `k` probe steps the position has
advanced by `groupWidth * triangular k`. -/
def triangular (k : Nat) : Nat := k * (k + 1) / 2

/-- The number of groups the probe sequence visits before its stride test
stops it: `⌈bucket_mask / groupWidth⌉`. -/
def numProbes (bucketMask : Nat) : Nat := (bucketMask + groupWidth - 1) / groupWidth

/-! ## The raw table -/

/-- The in-memory open-addressed table (`RawTable<T>` with `T = (K, V)`).
`ctrl` and `meta` have length `bucketMask + 1 + groupWidth` (the trailing
replicated group); `data` has length `bucketMask + 1`, with `none` standing
for a bucket whose memory was never written. -/
structure RawTable (K V : Type) where
  bucketMask : Nat
  ctrl : List Nat
  meta : List Nat
  data : List (Option (K × V))
  growthLeft : Nat
  items : Nat
  modCounter : Nat
  modLimit : Nat

namespace RawTable

variable {K V : Type}

/-- Number of buckets. -/
def buckets (t : RawTable K V) : Nat := t.bucketMask + 1

/-- Read a control byte. -/
def ctrlAt (t : RawTable K V) (i : Nat) : Nat := t.ctrl.getD i 0

/-- Read a meta byte. -/
def metaAt (t : RawTable K V) (i : Nat) : Nat := t.meta.getD i 0

/-- Read a bucket. -/
def dataAt (t : RawTable K V) (i : Nat) : Option (K × V) := t.data.getD i none

/-- The replicated index written alongside index `i`:
`((i.wrapping_sub(Group::WIDTH)) & bucket_mask) + Group::WIDTH`
(`set_ctrl` / `set_meta`, table.rs:534-569). -/
def mirrorIdx (bucketMask i : Nat) : Nat :=
  (wrapSub i groupWidth &&& bucketMask) + groupWidth

/-- `set_ctrl`: writes the control byte and its trailing replica. -/
def setCtrl (t : RawTable K V) (i c : Nat) : RawTable K V :=
  { t with ctrl := (t.ctrl.set i c).set (mirrorIdx t.bucketMask i) c }

/-- `set_meta`: writes the meta byte and its trailing replica. -/
def setMeta (t : RawTable K V) (i m : Nat) : RawTable K V :=
  { t with meta := (t.meta.set i m).set (mirrorIdx t.bucketMask i) m }

/-- `erase_by_index` (table.rs:496-519): demote the control byte to `DELETED`
when the erased slot sits inside a `groupWidth`-long run of non-`EMPTY` cells
(`empty_before.leading_zeros() + empty_after.trailing_zeros() >= Group::WIDTH`),
else to `EMPTY` with `growth_left += 1`; `items -= 1` either way. -/
def eraseByIndex (t : RawTable K V) (index : Nat) : RawTable K V :=
  if groupWidth ≤
      leadingZeros (matchEmpty (groupLoad t.ctrl (wrapSub index groupWidth &&& t.bucketMask)))
        + trailingZeros (matchEmpty (groupLoad t.ctrl index)) then
    { t.setCtrl index DELETED with items := wrapSub t.items 1 }
  else
    { t.setCtrl index EMPTY with growthLeft := incr t.growthLeft, items := wrapSub t.items 1 }

/-- `above_mod_threshold`: `mod_counter >= mod_limit`. -/
def aboveModThreshold (t : RawTable K V) : Bool := t.modLimit ≤ t.modCounter

/-- `find_insert_slot` (table.rs:575-607): walk the probe sequence for the first
group holding an `EMPTY | DELETED` byte; mask the hit; on the small-table path
where the masked index is full, rescan the aligned first group.  `none` models
the `unreachable!()` at the end of the loop and the (impossible)
`lowest_set_bit_nonzero` of an empty mask. -/
def findInsertSlot (t : RawTable K V) (hash : Nat) : Option Nat :=
  match (probeSeq t.bucketMask hash).findSome? (fun pos =>
      (lowestSetBit (matchEmptyOrDeleted (groupLoad t.ctrl pos))).map (fun bit => (pos, bit))) with
  | none => none
  | some (pos, bit) =>
    let result := (pos + bit) &&& t.bucketMask
    if isFull (t.ctrlAt result) then
      lowestSetBit (matchEmptyOrDeleted (groupLoad t.ctrl 0))
    else
      some result

/-- The per-candidate key test of the `find` / `find_mut` walk: the `eq`
closure applied to the masked bucket (`likely(eq(bucket.as_ref()))`), `none`
when the bucket's memory was never written. -/
def findIndexAt [DecidableEq K] (t : RawTable K V) (k : K) (index : Nat) : Option Nat :=
  match t.dataAt index with
  | some kv => if kv.1 = k then some index else none
  | none => none

/-- The shared traversal of `find` / `find_mut`: walk the probe sequence; in
each group test every `h2` match, lowest bit first, against the caller's key
equality; return the first index whose bucket's key is `k`. -/
def findIndex [DecidableEq K] (t : RawTable K V) (hash : Nat) (k : K) : Option Nat :=
  (probeSeq t.bucketMask hash).findSome? (fun pos =>
    ((List.range groupWidth).filter
        (fun off => (groupLoad t.ctrl pos).getD off 0 == h2 hash)).findSome? (fun off =>
      t.findIndexAt k ((pos + off) &&& t.bucketMask)))

/-- `find` (table.rs:778-795): on a hit whose meta byte is safe, promote it to
`SAFE_TOUCHED`. -/
def find [DecidableEq K] (t : RawTable K V) (hash : Nat) (k : K) :
    Option Nat × RawTable K V :=
  match t.findIndex hash k with
  | some index =>
    (some index, if isSafe (t.metaAt index) then t.setMeta index SAFE_TOUCHED else t)
  | none => (none, t)

/-- The bucket-touching step of `find_mut` on a hit: bump `mod_counter` if the
bucket was safe, and stamp the meta byte `MODIFIED_TOUCHED`. -/
def touchAt (t : RawTable K V) (index : Nat) : RawTable K V :=
  let t₁ := if isSafe (t.metaAt index) then { t with modCounter := incr t.modCounter } else t
  t₁.setMeta index MODIFIED_TOUCHED

/-- `find_mut` (table.rs:752-774): on a hit, bump `mod_counter` if the bucket
was safe, and stamp the meta byte `MODIFIED_TOUCHED`. -/
def findMut [DecidableEq K] (t : RawTable K V) (hash : Nat) (k : K) :
    Option Nat × RawTable K V :=
  match t.findIndex hash k with
  | some index => (some index, t.touchAt index)
  | none => (none, t)

/-- The victim-selection step shared by `clear_safe_bucket` and
`evict_mod_bucket`: first match the group against byte `b₁`; if that yields
nothing, fall back to `b₂` within the same group. -/
def matchFirst (g : List Nat) (b₁ b₂ : Nat) : Option Nat :=
  match lowestSetBit (matchByte g b₁) with
  | none => lowestSetBit (matchByte g b₂)
  | some bit => some bit

/-- `clear_safe_bucket` (table.rs:613-653): probe for a group holding a `SAFE`
meta byte, falling back to `SAFE_TOUCHED` within the group; erase the victim and
stamp its meta `SAFE`.  If the probe walk finds nothing the function returns
without erasing.  `none` models `lowest_set_bit_nonzero` of an empty mask on the
small-table fallback path. -/
def clearSafeBucket (t : RawTable K V) (hash : Nat) : Option (RawTable K V) :=
  match (probeSeq t.bucketMask hash).findSome? (fun pos =>
      (matchFirst (groupLoad t.meta pos) SAFE SAFE_TOUCHED).map (fun bit => (pos, bit))) with
  | none => some t
  | some (pos, bit) =>
    (if isModified (t.metaAt ((pos + bit) &&& t.bucketMask)) then
        lowestSetBit (matchEmptyOrDeleted (groupLoad t.meta 0))
      else some ((pos + bit) &&& t.bucketMask)).map (fun index =>
      (t.eraseByIndex index).setMeta index SAFE)

/-- The tail of `evict_mod_bucket` once the victim index is fixed: read the
victim's pair (`none` for memory never written), physically erase it when
`growth_left == 0`, stamp the meta `SAFE` and decrement `mod_counter`. -/
def evictAt (t : RawTable K V) (index : Nat) : Option (RawTable K V × (K × V)) :=
  match t.dataAt index with
  | none => none
  | some kv =>
    let t₁ := if t.growthLeft == 0 then t.eraseByIndex index else t
    let t₂ := t₁.setMeta index SAFE
    some ({ t₂ with modCounter := wrapSub t₂.modCounter 1 }, kv)

/-- `evict_mod_bucket` (table.rs:660-717): probe for a group holding a
`MODIFIED` meta byte, falling back to `MODIFIED_TOUCHED` within the group;
return the victim bucket's pair via `evictAt`.  `none` models the
`unreachable!()` and the small-table fallback on an empty mask. -/
def evictModBucket (t : RawTable K V) (hash : Nat) :
    Option (RawTable K V × (K × V)) :=
  match (probeSeq t.bucketMask hash).findSome? (fun pos =>
      (matchFirst (groupLoad t.meta pos) MODIFIED MODIFIED_TOUCHED).map
        (fun bit => (pos, bit))) with
  | none => none
  | some (pos, bit) =>
    (if isSafe (t.metaAt ((pos + bit) &&& t.bucketMask)) then
        lowestSetBit (matchEmptyOrDeleted (groupLoad t.meta 0))
      else some ((pos + bit) &&& t.bucketMask)).bind t.evictAt

/-- `RawTable::insert` (table.rs:722-743): reclaim a slot via
`clear_safe_bucket` when `growth_left == 0`, locate a slot, write value, control
and meta bytes, and update the counters (`growth_left` decremented via
`saturating_sub` iff the overwritten byte had bit 0 set, i.e. was `EMPTY`). -/
def insert (t : RawTable K V) (hash : Nat) (v : K × V) :
    Option (RawTable K V × Nat) :=
  (if t.growthLeft == 0 then t.clearSafeBucket hash else some t).bind (fun t₀ =>
    (t₀.findInsertSlot hash).map (fun index =>
      let c := t₀.ctrlAt index
      let t₁ := { t₀ with growthLeft := t₀.growthLeft - (if specialIsEmpty c then 1 else 0) }
      let t₂ := (t₁.setCtrl index (h2 hash)).setMeta index MODIFIED
      let t₃ := { t₂ with data := t₂.data.set index (some v) }
      ({ t₃ with items := incr t₃.items, modCounter := incr t₃.modCounter }, index)))

/-- Fuel-based helper for `nextPowerOfTwo` (structural recursion so that
concrete tables compute inside the kernel). -/
def nptAux (fuel n : Nat) : Nat :=
  match fuel with
  | 0 => 1
  | fuel + 1 => if n ≤ 1 then 1 else 2 * nptAux fuel ((n + 1) / 2)

/-- `next_power_of_two` on `usize`: the least power of two `≥ n` (1 for
`n ≤ 1`; the overflow branch is unreachable for the capacities the index can
allocate). -/
def nextPowerOfTwo (n : Nat) : Nat := nptAux n n

/-- `capacity_to_buckets` (table.rs:175-191). -/
def capacityToBuckets (cap : Nat) : Nat :=
  nextPowerOfTwo (if cap < 8 then cap + 1 else cap * 8 / 7)

/-- `bucket_mask_to_capacity` (table.rs:196-205). -/
def bucketMaskToCapacity (bucketMask : Nat) : Nat :=
  if bucketMask < 8 then bucketMask else (bucketMask + 1) / 8 * 7

/-- `with_capacity` for `capacity > 0` (table.rs:416-445): control bytes
initialised `EMPTY`, meta bytes `SAFE`.  The Rust code derives `mod_limit` from
the `f32` factor `mod_factor` (`(growth_left as f32 * mod_factor) as usize`);
floating point is not modelled, so the already-computed limit is a parameter. -/
def withCapacity (capacity modLimit : Nat) : RawTable K V :=
  let b := capacityToBuckets capacity
  { bucketMask := b - 1
    ctrl := List.replicate (b + groupWidth) EMPTY
    meta := List.replicate (b + groupWidth) SAFE
    data := List.replicate b none
    growthLeft := bucketMaskToCapacity (b - 1)
    items := 0
    modCounter := 0
    modLimit := modLimit }

/-- Number of aligned meta groups walked by `RawIterModified`
(the first group is always processed; the walk continues while
`next_meta < meta_end`, i.e. `ceil(buckets / groupWidth)` groups). -/
def numGroups (b : Nat) : Nat := (b + groupWidth - 1) / groupWidth

/-- The bucket indices yielded by a complete `iter_modified` run, in order:
a linear pass over the aligned meta groups, each group matched against
`match_modified` (top bit set), lowest bit first.  The `SAFE` writes the
iterator performs never land in a group that is still to be loaded, so each
group is matched against the original meta bytes. -/
def modIndices (meta0 : List Nat) (b : Nat) : List Nat :=
  (List.range (numGroups b)).flatMap (fun g =>
    ((List.range groupWidth).filter
        (fun off => isModified (meta0.getD (g * groupWidth + off) 0))).map
      (fun off => g * groupWidth + off))

/-- The control stream's replicated-trailing-group invariant (spec §9): for a
table of at least `groupWidth` buckets the bytes at `buckets + j` replicate the
bytes at `j`; for a smaller table the bytes between `buckets` and `groupWidth`
are the untouched `EMPTY` filler and the bytes at `groupWidth + j` replicate
the bytes at `j`. -/
def CtrlReplicaOk (t : RawTable K V) : Prop :=
  (groupWidth ≤ t.buckets → ∀ j < groupWidth, t.ctrlAt (t.buckets + j) = t.ctrlAt j) ∧
  (t.buckets < groupWidth →
    (∀ j, t.buckets ≤ j → j < groupWidth → t.ctrlAt j = EMPTY) ∧
    (∀ j < t.buckets, t.ctrlAt (groupWidth + j) = t.ctrlAt j))

/-- The meta stream's replicated-trailing-group invariant, with `SAFE` filler. -/
def MetaReplicaOk (t : RawTable K V) : Prop :=
  (groupWidth ≤ t.buckets → ∀ j < groupWidth, t.metaAt (t.buckets + j) = t.metaAt j) ∧
  (t.buckets < groupWidth →
    (∀ j, t.buckets ≤ j → j < groupWidth → t.metaAt j = SAFE) ∧
    (∀ j < t.buckets, t.metaAt (groupWidth + j) = t.metaAt j))

instance (t : RawTable K V) : Decidable (CtrlReplicaOk t) := by
  unfold CtrlReplicaOk
  infer_instance

instance (t : RawTable K V) : Decidable (MetaReplicaOk t) := by
  unfold MetaReplicaOk
  infer_instance

end RawTable

/-! ## Errors, the durable store, and the write mode -/

/-- The error taxonomy (`error.rs`), payloads dropped. -/
inductive BMError : Type
  | serde
  | insert
  | read
  | checkpoint
  | unknown
deriving DecidableEq, Repr

/-- The durable store (`RawStore` wrapping the rocksdb `Backend`), modelled as
an association list plus injected-failure flags for the engine's fallible
`put` / `get` (WAL-less rocksdb writes and reads can fail with engine errors). -/
structure RawStore (K V : Type) where
  entries : List (K × V)
  putOk : Bool
  getOk : Bool

namespace RawStore

variable {K V : Type}

/-- `RawStore::put`: an engine write error surfaces as `BMError::Insert`. -/
def put [DecidableEq K] (s : RawStore K V) (k : K) (v : V) :
    Except BMError (RawStore K V) :=
  if s.putOk then
    .ok { s with entries := (k, v) :: s.entries.filter (fun kv => decide (kv.1 ≠ k)) }
  else .error .insert

/-- `RawStore::get`: an engine read error surfaces as `BMError::Read`. -/
def get [DecidableEq K] (s : RawStore K V) (k : K) : Except BMError (Option V) :=
  if s.getOk then
    .ok ((s.entries.find? (fun kv => decide (kv.1 = k))).map (fun kv => kv.2))
  else .error .read

/-- Spec-side lookup used to state the claims. -/
def lookup [DecidableEq K] (s : RawStore K V) (k : K) : Option V :=
  (s.entries.find? (fun kv => decide (kv.1 = k))).map (fun kv => kv.2)

end RawStore

/-- `WriteMode` (index/mod.rs). -/
inductive WriteMode : Type
  | lazy
  | cow
deriving DecidableEq, Repr

namespace WriteMode

/-- `WriteMode::is_cow`. -/
def isCow (m : WriteMode) : Bool := m == .cow

/-- Modelled from the spec: `is_lazy` is called by `HashIndex::persist` but its
definition is not under `src/`; the spec says `Lazy` is the mode in which only
eviction / persist reach the durable store. -/
def isLazy (m : WriteMode) : Bool := m == .lazy

end WriteMode

/-! ## The hash index (`index/hash/mod.rs`) -/

/-- `HashIndex<K, V>`: the raw table, the write mode, the shared durable store,
and the hash builder (the external `fxhash` hasher is an opaque function). -/
structure HashIndex (K V : Type) where
  hashFn : K → Nat
  table : RawTable K V
  mode : WriteMode
  store : RawStore K V

namespace HashIndex

variable {K V : Type} [DecidableEq K]

/-- The resident arm of `HashIndex::insert` (mod.rs:118-142): replace the
value in place, returning the previous one.  `none` models a read of a bucket
whose memory was never written. -/
def replaceAt (s : HashIndex K V) (v : V) (t' : RawTable K V) (index : Nat) :
    Option (Option V × HashIndex K V) :=
  match t'.dataAt index with
  | some kv =>
    some (some kv.2, { s with table := { t' with data := t'.data.set index (some (kv.1, v)) } })
  | none => none

/-- The miss arm of `HashIndex::insert`: evict one dirty bucket to the store
when above the modification threshold (`let _ =` discards the store error) and
insert. -/
def insertMiss (s : HashIndex K V) (k : K) (v : V) (t' : RawTable K V) :
    Option (Option V × HashIndex K V) :=
  if t'.aboveModThreshold then
    match t'.evictModBucket (s.hashFn k) with
    | none => none
    | some (t₁, kv) =>
      let store₁ := match s.store.put kv.1 kv.2 with
        | .ok st => st
        | .error _ => s.store
      (t₁.insert (s.hashFn k) (k, v)).map
        (fun p => (none, { s with table := p.1, store := store₁ }))
  else
    (t'.insert (s.hashFn k) (k, v)).map (fun p => (none, { s with table := p.1 }))

/-- `HashIndex::insert` (mod.rs:118-142): replace in place on a resident key,
otherwise take the miss arm.  `none` models a table-level panic. -/
def insertOp (s : HashIndex K V) (k : K) (v : V) :
    Option (Option V × HashIndex K V) :=
  match s.table.findMut (s.hashFn k) k with
  | (some index, t') => s.replaceAt v t' index
  | (none, t') => s.insertMiss k v t'

/-- `HashOps::put`: `let _ = self.insert(key, value)`. -/
def put (s : HashIndex K V) (k : K) (v : V) : Option (HashIndex K V) :=
  (s.insertOp k v).map (fun p => p.2)

/-- The re-run of the lookup at the end of `HashOps::get`'s miss path, after
the store hit was re-inserted. -/
def getResolve (s : HashIndex K V) (k : K) (hash : Nat) :
    Option (Option V × HashIndex K V) :=
  match s.table.find hash k with
  | (some index, t') => some ((t'.dataAt index).map (fun kv => kv.2), { s with table := t' })
  | (none, t') => some (none, { s with table := t' })

/-- `HashOps::get` (mod.rs:240-265): in-memory lookup first; on a miss consult
the store, re-insert a hit and re-run the lookup; `panic!` on a store read
error (modelled `none`). -/
def get (s : HashIndex K V) (k : K) : Option (Option V × HashIndex K V) :=
  match s.table.find (s.hashFn k) k with
  | (some index, t') => some ((t'.dataAt index).map (fun kv => kv.2), { s with table := t' })
  | (none, t') =>
    match ({ s with table := t' } : HashIndex K V).store.get k with
    | .ok (some v) =>
      (({ s with table := t' } : HashIndex K V).insertOp k v).bind
        (fun p => p.2.getResolve k (s.hashFn k))
    | .ok none => some (none, { s with table := t' })
    | .error _ => none

/-- The dirty-bucket spill inside `rmw`'s resident arm: evict, forward the
pair to the store with the error discarded (`let _ =`, `// TODO: handle
err?`). -/
def rmwEvict (s : HashIndex K V) (k : K) (t₁ : RawTable K V) :
    Option (Bool × HashIndex K V) :=
  match t₁.evictModBucket (s.hashFn k) with
  | none => none
  | some (t₂, kv₂) =>
    let store₁ := match s.store.put kv₂.1 kv₂.2 with
      | .ok st => st
      | .error _ => s.store
    some (true, { s with table := t₂, store := store₁ })

/-- The resident arm of `rmw`: run `f` on the value in place, then spill one
dirty bucket if above the threshold. -/
def rmwHit (s : HashIndex K V) (k : K) (f : V → V) (t' : RawTable K V)
    (index : Nat) : Option (Bool × HashIndex K V) :=
  match t'.dataAt index with
  | none => none
  | some kv =>
    let t₁ := { t' with data := t'.data.set index (some (kv.1, f kv.2)) }
    if t₁.aboveModThreshold then s.rmwEvict k t₁
    else some (true, { s with table := t₁ })

/-- `HashOps::rmw` (mod.rs:272-318): mutate in place on a resident key then
spill one dirty bucket if above the threshold (store error discarded); on a
memory miss consult the store, apply `f`, insert; `false` when neither holds
(a store read error also falls through to `false`).  The `is_cow` branches are
`// TODO` in the source and forward nothing. -/
def rmw (s : HashIndex K V) (k : K) (f : V → V) :
    Option (Bool × HashIndex K V) :=
  match s.table.findMut (s.hashFn k) k with
  | (some index, t') => s.rmwHit k f t' index
  | (none, t') =>
    match s.store.get k with
    | .ok (some v) =>
      (insertOp { s with table := t' } k (f v)).map (fun p => (true, p.2))
    | _ => some (false, { s with table := t' })

/-- The store-put loop inside `IndexOps::persist` for `HashIndex`:
each yielded bucket's meta byte is rewritten to `SAFE` — by
`RawIterModified::next`, which writes the primary byte only, WITHOUT the
trailing replica — and its pair forwarded to the store; `?` propagates the
first store error (`none`). -/
def persistLoop (store : RawStore K V) (t : RawTable K V) :
    List Nat → Option (RawStore K V × RawTable K V)
  | [] => some (store, t)
  | i :: rest =>
    let t' := { t with meta := t.meta.set i SAFE }
    match t'.dataAt i with
    | none => none
    | some kv =>
      match store.put kv.1 kv.2 with
      | .error _ => none
      | .ok store' => persistLoop store' t' rest

/-- `IndexOps::persist` for `HashIndex` (mod.rs:217-232): in lazy mode iterate
the modified buckets (`iter_modified` zeroes `mod_counter` at creation) and
forward each to the store; in COW mode do nothing. -/
def persist (s : HashIndex K V) : Option (HashIndex K V) :=
  if s.mode.isLazy then
    let t := s.table
    let idxs := RawTable.modIndices t.meta t.buckets
    (persistLoop s.store { t with modCounter := 0 } idxs).map
      (fun p => { s with store := p.1, table := p.2 })
  else some s

/-- Spec-side: does some full bucket of the in-memory table hold key `k`? -/
def tableHasKey (s : HashIndex K V) (k : K) : Prop :=
  ∃ i < s.table.buckets, isFull (s.table.ctrlAt i) ∧
    (s.table.dataAt i).map (fun kv => kv.1) = some k

instance (s : HashIndex K V) (k : K) : Decidable (s.tableHasKey k) := by
  unfold tableHasKey; infer_instance

/-- The well-formedness the code maintains for a hash index state: the bucket
count is a power of two with at least two buckets and fits a `usize`, the
control / data streams have their allocated lengths, the control stream obeys
the replicated-trailing-group invariant of both byte streams, at least one
bucket is not full (the load factor keeps free slots), and no key occupies two
full buckets at once. -/
def WF (s : HashIndex K V) (m : Nat) : Prop :=
  s.table.bucketMask + 1 = 2 ^ m ∧
  1 ≤ s.table.bucketMask ∧
  m ≤ 64 ∧
  s.table.ctrl.length = s.table.buckets + groupWidth ∧
  s.table.meta.length = s.table.buckets + groupWidth ∧
  s.table.data.length = s.table.buckets ∧
  s.table.CtrlReplicaOk ∧
  s.table.MetaReplicaOk ∧
  (∃ i < s.table.buckets, isFull (s.table.ctrlAt i) = false) ∧
  (∀ i < s.table.buckets, ∀ j < s.table.buckets,
    isFull (s.table.ctrlAt i) = true → isFull (s.table.ctrlAt j) = true →
    (s.table.dataAt i).map Prod.fst = (s.table.dataAt j).map Prod.fst →
    (s.table.dataAt i).isSome = true → i = j)

/-- Spec-side: the value a key currently denotes — its resident value if the
table probe hits, else the durable store's copy. -/
def observe (s : HashIndex K V) (k : K) : Option V :=
  match s.table.findIndex (s.hashFn k) k with
  | some i => (s.table.dataAt i).map (fun kv => kv.2)
  | none => s.store.lookup k

end HashIndex

/-! ## The single-value index (`index/value/mod.rs`) -/

/-- `ValueIndex<V>`: a raw byte-string key, one optional slot, the write mode
and the shared store (keys of the store are raw byte strings here). -/
structure ValueIndex (V : Type) where
  key : List Nat
  data : Option V
  mode : WriteMode
  store : RawStore (List Nat) V

namespace ValueIndex

variable {V : Type}

/-- `ValueIndex::setup`, reached from both `new` and `cow`:
the slot starts as `Some(V::default())`. -/
def setup [Inhabited V] (key : List Nat) (mode : WriteMode)
    (store : RawStore (List Nat) V) : ValueIndex V :=
  { key := key, data := some default, mode := mode, store := store }

/-- `ValueIndex::new` — lazy mode. -/
def new [Inhabited V] (key : List Nat) (store : RawStore (List Nat) V) : ValueIndex V :=
  setup key .lazy store

/-- `ValueIndex::cow` — copy-on-write mode. -/
def cow [Inhabited V] (key : List Nat) (store : RawStore (List Nat) V) : ValueIndex V :=
  setup key .cow store

/-- `IndexOps::persist` for `ValueIndex`: forward the value (if any) to the
store; the store mutation survives an error report. -/
def persist (s : ValueIndex V) : ValueIndex V × Option BMError :=
  match s.data with
  | some v =>
    match s.store.put s.key v with
    | .ok st => ({ s with store := st }, none)
    | .error e => (s, some e)
  | none => (s, none)

/-- `ValueOps::get`: the in-memory slot, never consulting the store. -/
def get (s : ValueIndex V) : Option V := s.data

/-- `ValueOps::put`: overwrite the slot; in COW mode `let _ = self.persist()`. -/
def put (s : ValueIndex V) (v : V) : ValueIndex V :=
  let s₁ := { s with data := some v }
  if s₁.mode.isCow then (s₁.persist).1 else s₁

/-- `ValueOps::rmw`: run the closure on the slot when present (COW forwards);
`return true` unconditionally. -/
def rmw (s : ValueIndex V) (f : V → V) : Bool × ValueIndex V :=
  match s.data with
  | some v =>
    let s₁ := { s with data := some (f v) }
    (true, if s₁.mode.isCow then (s₁.persist).1 else s₁)
  | none => (true, s)

/-- The operations a caller can issue against a `ValueIndex`
(for quantifying over reachable states). -/
inductive Op (V : Type) : Type
  | putOp (v : V)
  | rmwOp (f : V → V)
  | persistOp
  | getOp

/-- Run one operation, dropping returned values. -/
def step (s : ValueIndex V) : Op V → ValueIndex V
  | .putOp v => s.put v
  | .rmwOp f => (s.rmw f).2
  | .persistOp => (s.persist).1
  | .getOp => s

/-- Run a sequence of operations. -/
def run (s : ValueIndex V) (ops : List (Op V)) : ValueIndex V :=
  ops.foldl step s

end ValueIndex

/-! ## The rocksdb checkpoint counter (`raw_store/rocks/mod.rs`) -/

/-- The outcome of the three fallible engine calls inside one
`Backend::checkpoint` run (`db.flush()`, `Checkpoint::new`,
`create_checkpoint`) — the rocksdb engine is external, so its failures are an
environment input. -/
structure CkptEnv where
  flushOk : Bool
  newOk : Bool
  createOk : Bool
deriving DecidableEq, Repr

/-- Whether every engine step of one checkpoint call succeeds. -/
def CkptEnv.ok (e : CkptEnv) : Bool := e.flushOk && e.newOk && e.createOk

/-- The durable-store backend state relevant to checkpointing: the `u64`
`checkpoint_counter` and the list of snapshot directory names created so far
(in creation order). -/
structure Backend where
  counter : Nat
  dirs : List Nat
deriving DecidableEq, Repr

/-- `Backend::checkpoint` (rocks/mod.rs:74-90): the snapshot path is named by
the current counter; each engine failure maps to `BrittMarieError::Checkpoint`
and propagates via `?` before the counter is incremented; on success the
directory is created and `checkpoint_counter += 1`. -/
def Backend.checkpoint (e : CkptEnv) (b : Backend) : Backend × Option BMError :=
  if !e.flushOk then (b, some .checkpoint)
  else if !e.newOk then (b, some .checkpoint)
  else if !e.createOk then (b, some .checkpoint)
  else ({ counter := incr b.counter, dirs := b.dirs ++ [b.counter] }, none)

/-- A fresh backend (`Backend::new`): counter 0, no snapshots. -/
def Backend.new : Backend := { counter := 0, dirs := [] }

/-- Run a sequence of checkpoint calls under the given environments. -/
def Backend.runCheckpoints (envs : List CkptEnv) (b : Backend) : Backend :=
  envs.foldl (fun b e => (Backend.checkpoint e b).1) b

/-! ## Concrete fixtures used to exercise the hash index -/

/-- A working durable store holding nothing. -/
def storeOk : RawStore Nat Nat := { entries := [], putOk := true, getOk := true }

/-- A durable store whose engine rejects writes. -/
def storeBadPut : RawStore Nat Nat := { entries := [], putOk := false, getOk := true }

/-- A lazy `HashIndex::new(4, …)` over `u64` keys/values whose `mod_limit`
came out as 1; the identity stands for the opaque `fxhash` hasher. -/
def lazyIdx4 : HashIndex Nat Nat :=
  { hashFn := fun k => k, table := RawTable.withCapacity 4 1, mode := .lazy, store := storeOk }

/-- The same lazy index, but the durable store's engine fails every write. -/
def lazyIdx4BadStore : HashIndex Nat Nat :=
  { hashFn := fun k => k, table := RawTable.withCapacity 4 1, mode := .lazy,
    store := storeBadPut }

/-- A COW `HashIndex::cow(4, …)` whose `mod_limit` came out as 10 (so the
dirty-eviction path never runs in the scenarios below). -/
def cowIdx4 : HashIndex Nat Nat :=
  { hashFn := fun k => k, table := RawTable.withCapacity 4 10, mode := .cow, store := storeOk }

/-- The lazy index after `put(3, 7); persist(); get(&3)` — the bucket for key 3
is full with meta `SAFE_TOUCHED` and nothing is dirty. -/
def c4state : HashIndex Nat Nat :=
  (((lazyIdx4.put 3 7).bind (fun s => s.persist)).bind
    (fun s => (s.get 3).map (fun p => p.2))).getD lazyIdx4

/-- The state after one more (successful) `persist()` on `c4state`. -/
def c4state' : HashIndex Nat Nat := (c4state.persist).getD c4state

/-- The number of `EMPTY` bytes in a group — the quantity the spec's erase rule
speaks about. -/
def countEmptyBytes (g : List Nat) : Nat := (g.filter (fun c => c == EMPTY)).length

/-- The run of consecutive non-`EMPTY` bytes at the end of a group — what
`empty_before.leading_zeros()` actually measures in `erase_by_index`. -/
def runNonEmptyEnd (g : List Nat) : Nat :=
  (g.reverse.takeWhile (fun c => c != EMPTY)).length

/-- The run of consecutive non-`EMPTY` bytes at the start of a group — what
`empty_after.trailing_zeros()` actually measures in `erase_by_index`. -/
def runNonEmptyStart (g : List Nat) : Nat :=
  (g.takeWhile (fun c => c != EMPTY)).length

/-- A 32-bucket table holding a cluster of 15 + 15 full buckets around index 16
with single `EMPTY` holes at indices 8 and 17 (control stream mirrored into the
trailing replica, meta all `SAFE`). -/
def c6table : RawTable Nat Nat :=
  let a : List Nat := (List.range 16).map (fun j => if j = 8 then EMPTY else 0x10)
  let b : List Nat := (List.range 16).map (fun j => if j = 1 then EMPTY else 0x10)
  { bucketMask := 31
    ctrl := a ++ b ++ a
    meta := List.replicate 48 SAFE
    data := (List.range 32).map (fun i => if i = 8 ∨ i = 17 then none else some (i, 0))
    growthLeft := 1
    items := 30
    modCounter := 0
    modLimit := 5 }

/-! ## Basic arithmetic facts -/

theorem incr_eq_succ {n : Nat} (h : n + 1 < U64) : incr n = n + 1 :=
  Nat.mod_eq_of_lt h

theorem wrapSub_eq_sub {a c : Nat} (hc : c ≤ a) (ha : a < U64) (hcU : c ≤ U64) :
    wrapSub a c = a - c := by
  unfold wrapSub
  have h1 : a + (U64 - c) = U64 + (a - c) := by omega
  rw [h1, Nat.add_mod_left, Nat.mod_eq_of_lt (by omega)]

/-! ## Claim C10: the value index never loses its slot -/

namespace ValueIndex

variable {V : Type}

theorem persist_data (s : ValueIndex V) : (s.persist).1.data = s.data := by
  unfold persist
  cases hd : s.data with
  | none => simp [hd]
  | some v => cases h : s.store.put s.key v <;> simp [h, hd]

theorem step_data_isSome (s : ValueIndex V) (op : Op V) (h : s.data.isSome) :
    (s.step op).data.isSome := by
  cases op with
  | putOp v =>
    show (s.put v).data.isSome
    unfold put
    cases hm : (({ s with data := some v } : ValueIndex V)).mode.isCow <;>
      simp [hm, persist_data]
  | rmwOp f =>
    show ((s.rmw f).2).data.isSome
    unfold rmw
    cases hd : s.data with
    | none => rw [hd] at h; simp at h
    | some v =>
      cases hm : (({ s with data := some (f v) } : ValueIndex V)).mode.isCow <;>
        simp [hm, persist_data]
  | persistOp =>
    show ((s.persist).1).data.isSome
    rw [persist_data]; exact h
  | getOp => exact h

theorem run_data_isSome (s : ValueIndex V) (ops : List (Op V)) (h : s.data.isSome) :
    (s.run ops).data.isSome := by
  induction ops generalizing s with
  | nil => exact h
  | cons op rest ih => exact ih _ (step_data_isSome s op h)

theorem rmw_fst (s : ValueIndex V) (f : V → V) : (s.rmw f).1 = true := by
  unfold rmw; cases s.data <;> simp

theorem rmw_get (s : ValueIndex V) (f : V → V) :
    (s.rmw f).2.get = s.get.map f := by
  unfold rmw get
  cases hd : s.data with
  | none => simp [hd]
  | some v =>
    cases hm : (({ s with data := some (f v) } : ValueIndex V)).mode.isCow <;>
      simp [hm, persist_data]

end ValueIndex

/-- C10: a freshly constructed `ValueIndex` (via `new` or `cow`, i.e. `setup`
with either write mode) initialises its slot to `Some(V::default())`, so `get`
returns the default before any `put`, never returns `None` in any state
reachable through the index operations, and `rmw f` always returns `true`
while applying `f` to the in-memory value. -/
theorem valueIndex_slot_always_present {V : Type} [Inhabited V]
    (key : List Nat) (mode : WriteMode) (store : RawStore (List Nat) V)
    (ops : List (ValueIndex.Op V)) (f : V → V) :
    (ValueIndex.setup key mode store).get = some (default : V) ∧
    ((ValueIndex.setup key mode store).run ops).get.isSome = true ∧
    (((ValueIndex.setup key mode store).run ops).rmw f).1 = true ∧
    (((ValueIndex.setup key mode store).run ops).rmw f).2.get
      = (((ValueIndex.setup key mode store).run ops).get).map f := by
  refine ⟨rfl, ?_, ValueIndex.rmw_fst _ f, ValueIndex.rmw_get _ f⟩
  exact ValueIndex.run_data_isSome _ ops rfl

/-! ## Claim C9: checkpoint directory numbering -/

theorem checkpoint_ok {e : CkptEnv} (b : Backend) (h : e.ok = true) :
    Backend.checkpoint e b
      = ({ counter := incr b.counter, dirs := b.dirs ++ [b.counter] }, none) := by
  rcases e with ⟨f, n, c⟩
  simp only [CkptEnv.ok, Bool.and_eq_true] at h
  obtain ⟨⟨hf, hn⟩, hc⟩ := h
  simp [Backend.checkpoint, hf, hn, hc]

theorem checkpoint_fail {e : CkptEnv} (b : Backend) (h : e.ok = false) :
    Backend.checkpoint e b = (b, some .checkpoint) := by
  rcases e with ⟨f, n, c⟩
  rcases f <;> rcases n <;> rcases c <;>
    simp_all [CkptEnv.ok, Backend.checkpoint]

theorem runCheckpoints_range (envs : List CkptEnv) :
    ∀ n, n + envs.countP CkptEnv.ok < U64 →
      Backend.runCheckpoints envs { counter := n, dirs := List.range n }
        = { counter := n + envs.countP CkptEnv.ok
            dirs := List.range (n + envs.countP CkptEnv.ok) } := by
  induction envs with
  | nil => intro n _; simp [Backend.runCheckpoints]
  | cons e rest ih =>
    intro n hn
    cases h : e.ok with
    | true =>
      have hc : (e :: rest).countP CkptEnv.ok = rest.countP CkptEnv.ok + 1 := by
        simp [List.countP_cons, h]
      have hn' : n + 1 + rest.countP CkptEnv.ok < U64 := by omega
      have hlt : n + 1 < U64 := by omega
      have hstep : Backend.runCheckpoints (e :: rest) { counter := n, dirs := List.range n }
          = Backend.runCheckpoints rest
              { counter := n + 1, dirs := List.range (n + 1) } := by
        have hone : (Backend.checkpoint e { counter := n, dirs := List.range n }).1
            = { counter := n + 1, dirs := List.range (n + 1) } := by
          rw [checkpoint_ok _ h]
          simp [incr_eq_succ hlt, List.range_succ]
        simp only [Backend.runCheckpoints, List.foldl_cons]
        rw [hone]
      have harith : n + 1 + rest.countP CkptEnv.ok = n + (e :: rest).countP CkptEnv.ok := by
        omega
      rw [hstep, ih (n + 1) hn', harith]
    | false =>
      have hc : (e :: rest).countP CkptEnv.ok = rest.countP CkptEnv.ok := by
        simp [List.countP_cons, h]
      have hstep : Backend.runCheckpoints (e :: rest) { counter := n, dirs := List.range n }
          = Backend.runCheckpoints rest { counter := n, dirs := List.range n } := by
        simp only [Backend.runCheckpoints, List.foldl_cons]
        rw [checkpoint_fail _ h]
      rw [hstep, ih n (by omega), hc]

/-- C9: on one store instance, the n-th successful `checkpoint()` call creates
the snapshot directory named `n`, counting from 0 (the directory list after any
call sequence is exactly `0, 1, …, #successes − 1`); a failed call surfaces a
`Checkpoint` error and leaves the counter and the directories untouched, so the
next successful call reuses the same number. -/
theorem checkpoint_numbering (envs : List CkptEnv)
    (h : envs.countP CkptEnv.ok < U64) :
    (Backend.runCheckpoints envs Backend.new).dirs
        = List.range (envs.countP CkptEnv.ok) ∧
    (Backend.runCheckpoints envs Backend.new).counter = envs.countP CkptEnv.ok ∧
    ∀ (e : CkptEnv) (b : Backend), e.ok = false →
      Backend.checkpoint e b = (b, some BMError.checkpoint) := by
  have h0 := runCheckpoints_range envs 0 (by omega)
  have hnew : (Backend.new : Backend) = { counter := 0, dirs := List.range 0 } := by
    simp [Backend.new]
  rw [hnew, h0]
  exact ⟨by simp, by simp, fun e b he => checkpoint_fail b he⟩

/-- Witness for C9 at a concrete call sequence: success, failure, success
creates directories `0` then `1`, with the failure surfacing. -/
theorem checkpoint_numbering_witness :
    ([⟨true, true, true⟩, ⟨true, false, true⟩,
        ⟨true, true, true⟩] : List CkptEnv).countP CkptEnv.ok < U64 ∧
    (Backend.runCheckpoints
        [⟨true, true, true⟩, ⟨true, false, true⟩, ⟨true, true, true⟩]
        Backend.new).dirs = List.range 2 := by
  refine ⟨by decide, ?_⟩
  exact (checkpoint_numbering _ (by decide)).1

/-! ## Claim C3: COW forwarding is absent from the hash index

The `is_cow` branches of `HashIndex::insert`/`rmw` are `// TODO` in the source,
so a COW-mode `put`/`rmw` leaves the durable store untouched even though the
`persist` implementation skips COW indexes on the grounds that "COW copies on
each modification". -/

/-- C3 (the code violates it): on a COW hash index, `put(3, 7)` completes with
the value resident in memory but the durable store still empty, and a
subsequent `rmw` that mutates the value to 12 also leaves the store empty. -/
theorem cow_put_rmw_not_forwarded :
    ((cowIdx4.put 3 7).map (fun s => s.store.entries)) = some [] ∧
    (((cowIdx4.put 3 7).bind (fun s => s.get 3)).map (fun p => p.1)) = some (some 7) ∧
    (((cowIdx4.put 3 7).bind (fun s => s.rmw 3 (fun v => v + 5))).map
      (fun p => (p.1, p.2.store.entries))) = some (true, []) ∧
    ((((cowIdx4.put 3 7).bind (fun s => s.rmw 3 (fun v => v + 5))).bind
      (fun p => p.2.get 3)).map (fun q => q.1)) = some (some 12) := by
  decide

/-! ## Claim C7: durable-store write errors during put/rmw are discarded

`HashIndex::insert` and `HashOps::rmw` forward the evicted bucket with
`let _ = self.raw_store_put(key, value);` (`// TODO: handle err?`), so an
`Insert` error never reaches the caller — `put` returns `()` and `rmw` a plain
`bool`. -/

/-- C7 (the code violates it): with a store that fails every write and
`mod_limit = 1`, `put(1, 10); put(2, 20)` triggers a dirty eviction of bucket 1
whose store write fails; the second `put` nevertheless completes normally, the
store still holds nothing, and the evicted bucket is stamped `SAFE` (believed
durable) while remaining resident. -/
theorem evict_write_error_discarded :
    (((lazyIdx4BadStore.put 1 10).bind (fun s => s.put 2 20)).map
      (fun s => s.store.entries)) = some [] ∧
    (((lazyIdx4BadStore.put 1 10).bind (fun s => s.put 2 20)).map
      (fun s => (s.table.items, s.table.metaAt 1, isFull (s.table.ctrlAt 1))))
      = some (2, SAFE, true) ∧
    (((lazyIdx4BadStore.put 1 10).bind (fun s => s.put 2 20)).map
      (fun s => s.table.dataAt 1)) = some (some (1, 10)) := by
  refine ⟨by decide, by decide, by decide⟩

/-! ## Claim C5: the meta replica invariant is broken by `iter_modified`

`set_ctrl`/`set_meta` always write both the byte and its trailing replica, but
`RawIterModified::next` (table.rs:982) rewrites the yielded bucket's meta byte
with a bare `std::ptr::write`, without the replica. -/

/-- C5 (the code violates it): after `put(3, 7)` on a lazy index with 8 buckets
and a completed `persist()` (which drives `iter_modified` to completion),
`meta[3] = SAFE` while its trailing replica `meta[19]` still reads `MODIFIED`. -/
theorem iter_modified_breaks_meta_replica :
    RawTable.mirrorIdx 7 3 = 19 ∧
    (((lazyIdx4.put 3 7).bind (fun s => s.persist)).map
      (fun s => (s.table.bucketMask, s.table.metaAt 3,
                 s.table.metaAt (RawTable.mirrorIdx s.table.bucketMask 3))))
      = some (7, SAFE, MODIFIED) ∧
    SAFE ≠ MODIFIED := by
  refine ⟨by decide, by decide, by decide⟩

/-! ## List helpers -/

theorem getD_set_ne {α : Type _} (l : List α) {i j : Nat} (a d : α) (h : i ≠ j) :
    (l.set i a).getD j d = l.getD j d := by
  simp [List.getD_eq_getElem?_getD, List.getElem?_set_ne h]

theorem getD_set_self {α : Type _} (l : List α) {i : Nat} (a d : α) (h : i < l.length) :
    (l.set i a).getD i d = a := by
  simp [List.getD_eq_getElem?_getD, List.getElem?_set_self, h]

theorem getD_foldl_set_not_mem {α : Type _} (idxs : List Nat) (a d : α) :
    ∀ (l : List α) (j : Nat), j ∉ idxs →
      (idxs.foldl (fun m i => m.set i a) l).getD j d = l.getD j d := by
  induction idxs with
  | nil => intro l j _; rfl
  | cons i rest ih =>
    intro l j hj
    have hne : i ≠ j := by
      intro h
      exact hj (by rw [← h]; exact List.mem_cons_self i rest)
    rw [List.foldl_cons, ih (l.set i a) j (fun h => hj (List.mem_cons_of_mem _ h)),
      getD_set_ne l a d hne]

theorem getD_foldl_set_mem {α : Type _} (idxs : List Nat) (a d : α) :
    ∀ (l : List α) (j : Nat), j ∈ idxs → j < l.length →
      (idxs.foldl (fun m i => m.set i a) l).getD j d = a := by
  induction idxs with
  | nil => intro l j hj _; cases hj
  | cons i rest ih =>
    intro l j hj hlen
    rw [List.foldl_cons]
    by_cases hr : j ∈ rest
    · exact ih (l.set i a) j hr (by simpa using hlen)
    · have hij : j = i := by
        rcases List.mem_cons.mp hj with h | h
        · exact h
        · exact absurd h hr
      subst hij
      rw [getD_foldl_set_not_mem rest a d (l.set j a) j hr, getD_set_self l a d hlen]

theorem isSafe_of_not_isModified {m : Nat} (h : isModified m = false) :
    isSafe m = true := by
  unfold isModified at h
  unfold isSafe
  simpa using h

/-! ## Claim C4: what a successful lazy `persist()` guarantees -/

/-- C4 as literally claimed is false: `c4state` holds key 3 in a full bucket
with meta `SAFE_TOUCHED`; one more `persist()` succeeds (`c4run` is `some`)
yet the full bucket's meta byte is `SAFE_TOUCHED`, not `SAFE`. -/
theorem persist_leaves_touched_meta :
    c4state.persist = some c4state' ∧
    isFull (c4state'.table.ctrlAt 3) = true ∧
    c4state'.table.modCounter = 0 ∧
    c4state'.table.metaAt 3 = SAFE_TOUCHED ∧
    SAFE_TOUCHED ≠ SAFE := by
  refine ⟨by rfl, by decide, by decide, by decide, by decide⟩

theorem persistLoop_table {K V : Type} [DecidableEq K] (idxs : List Nat) :
    ∀ (store : RawStore K V) (t : RawTable K V) res,
      HashIndex.persistLoop store t idxs = some res →
      res.2 = { t with meta := idxs.foldl (fun m i => m.set i SAFE) t.meta } := by
  induction idxs with
  | nil =>
    intro store t res h
    simp only [HashIndex.persistLoop] at h
    cases h
    rfl
  | cons i rest ih =>
    intro store t res h
    simp only [HashIndex.persistLoop] at h
    split at h
    · exact Option.noConfusion h
    · split at h
      · exact Option.noConfusion h
      · have hres := ih _ _ res h
        rw [hres, List.foldl_cons]

theorem mem_modIndices {meta0 : List Nat} {b i : Nat} (hi : i < b)
    (hmod : isModified (meta0.getD i 0) = true) :
    i ∈ RawTable.modIndices meta0 b := by
  unfold RawTable.modIndices
  rw [List.mem_flatMap]
  refine ⟨i / groupWidth, ?_, ?_⟩
  · rw [List.mem_range]
    unfold RawTable.numGroups
    have hb : b + groupWidth - 1 = (b - 1) + groupWidth := by
      have : 1 ≤ groupWidth := by decide
      omega
    rw [hb, Nat.add_div_right _ (by decide : 0 < groupWidth)]
    have h1 : i / groupWidth ≤ (b - 1) / groupWidth :=
      Nat.div_le_div_right (by omega)
    omega
  · have hidx : i / groupWidth * groupWidth + i % groupWidth = i := by
      rw [Nat.mul_comm]
      exact Nat.div_add_mod i groupWidth
    rw [List.mem_map]
    refine ⟨i % groupWidth, ?_, hidx⟩
    rw [List.mem_filter]
    constructor
    · rw [List.mem_range]
      exact Nat.mod_lt _ (by decide)
    · rw [hidx]
      exact hmod

/-- C4, amended as the code forces: after any successful `persist()` on a lazy
hash index, `mod_counter == 0` and the meta byte of every full bucket has its
dirty bit clear — it is `SAFE` or `SAFE_TOUCHED` (a bucket that was merely read
keeps its touched bit; only dirty buckets are rewritten, to `SAFE`). -/
theorem persist_lazy_clears_dirty {K V : Type} [DecidableEq K]
    (s s' : HashIndex K V)
    (hmode : s.mode = .lazy)
    (hlen : s.table.buckets + groupWidth ≤ s.table.meta.length)
    (hpersist : s.persist = some s') :
    s'.table.modCounter = 0 ∧
    ∀ i < s'.table.buckets, isFull (s'.table.ctrlAt i) = true →
      isSafe (s'.table.metaAt i) = true := by
  have hunfold : s.persist = (HashIndex.persistLoop s.store { s.table with modCounter := 0 }
      (RawTable.modIndices s.table.meta s.table.buckets)).map
      (fun p => { s with store := p.1, table := p.2 }) := by
    unfold HashIndex.persist
    rw [hmode]
    rfl
  rw [hunfold] at hpersist
  cases hres : HashIndex.persistLoop s.store { s.table with modCounter := 0 }
      (RawTable.modIndices s.table.meta s.table.buckets) with
  | none => rw [hres] at hpersist; cases hpersist
  | some res =>
    rw [hres] at hpersist
    rw [Option.map_some'] at hpersist
    have htab := persistLoop_table _ _ _ _ hres
    injection hpersist with hpersist
    subst hpersist
    rw [htab]
    refine ⟨rfl, ?_⟩
    intro i hi _
    simp only [RawTable.buckets] at hi
    by_cases hmod : isModified (s.table.meta.getD i 0) = true
    · have hmem : i ∈ RawTable.modIndices s.table.meta s.table.buckets :=
        mem_modIndices (by simpa [RawTable.buckets] using hi) hmod
      show isSafe (((RawTable.modIndices s.table.meta s.table.buckets).foldl
        (fun m i => m.set i SAFE) s.table.meta).getD i 0) = true
      rw [getD_foldl_set_mem _ _ _ _ _ hmem (by
        have hlen' : s.table.buckets + groupWidth ≤ s.table.meta.length := hlen
        simp only [RawTable.buckets] at hlen'
        omega)]
      decide
    · show isSafe (((RawTable.modIndices s.table.meta s.table.buckets).foldl
        (fun m i => m.set i SAFE) s.table.meta).getD i 0) = true
      by_cases hmem : i ∈ RawTable.modIndices s.table.meta s.table.buckets
      · rw [getD_foldl_set_mem _ _ _ _ _ hmem (by
          simp only [RawTable.buckets] at hlen; omega)]
        decide
      · rw [getD_foldl_set_not_mem _ _ _ _ _ hmem]
        exact isSafe_of_not_isModified (by simpa using hmod)

/-! ## Claim C6: the `erase_by_index` EMPTY/DELETED rule -/

theorem leadingZeros_matchEmpty (g : List Nat) :
    leadingZeros (matchEmpty g) = runNonEmptyEnd g := by
  unfold leadingZeros runNonEmptyEnd matchEmpty matchByte
  rw [← List.map_reverse, List.takeWhile_map, List.length_map]
  rfl

theorem trailingZeros_matchEmpty (g : List Nat) :
    trailingZeros (matchEmpty g) = runNonEmptyStart g := by
  unfold trailingZeros runNonEmptyStart matchEmpty matchByte
  rw [List.takeWhile_map, List.length_map]
  rfl

theorem getD_set_pair {α : Type _} (l : List α) (i j : Nat) (c d : α)
    (h : i < l.length) : ((l.set i c).set j c).getD i d = c := by
  by_cases hj : j = i
  · subst hj
    exact getD_set_self _ _ _ (by simpa using h)
  · rw [getD_set_ne _ _ _ hj, getD_set_self _ _ _ h]

theorem getD_set_pair_other {α : Type _} (l : List α) (i j r : Nat) (c d : α)
    (hi : i ≠ r) (hj : j ≠ r) : ((l.set i c).set j c).getD r d = l.getD r d := by
  rw [getD_set_ne _ _ _ hj, getD_set_ne _ _ _ hi]

/-- C6, amended as the code forces: `erase_by_index(i)` decrements `items` and
sets the control byte to `EMPTY` with `growth_left` incremented exactly when
the run of consecutive non-`EMPTY` bytes ending just before `i` (measured in
the group ending at `i`) plus the run of consecutive non-`EMPTY` bytes starting
at `i` is shorter than `groupWidth`; otherwise (the slot sits inside a
`groupWidth`-long non-empty run) it sets `DELETED` and leaves `growth_left`
unchanged.  (The claim's counting of `EMPTY` bytes in the two groups is not
what `leading_zeros`/`trailing_zeros` measure.) -/
theorem erase_by_index_spec {K V : Type} (t : RawTable K V) (index : Nat)
    (_hfull : isFull (t.ctrlAt index) = true)
    (hidx : index < t.buckets)
    (hlen : t.buckets + groupWidth ≤ t.ctrl.length)
    (hitems : 1 ≤ t.items) (hitemsU : t.items < U64)
    (hgrow : t.growthLeft + 1 < U64) :
    (t.eraseByIndex index).items = t.items - 1 ∧
    (groupWidth ≤ runNonEmptyEnd (groupLoad t.ctrl (wrapSub index groupWidth &&& t.bucketMask))
        + runNonEmptyStart (groupLoad t.ctrl index) →
      (t.eraseByIndex index).ctrlAt index = DELETED ∧
      (t.eraseByIndex index).growthLeft = t.growthLeft) ∧
    (runNonEmptyEnd (groupLoad t.ctrl (wrapSub index groupWidth &&& t.bucketMask))
        + runNonEmptyStart (groupLoad t.ctrl index) < groupWidth →
      (t.eraseByIndex index).ctrlAt index = EMPTY ∧
      (t.eraseByIndex index).growthLeft = t.growthLeft + 1) := by
  have hilen : index < t.ctrl.length := by
    unfold RawTable.buckets at hidx hlen
    omega
  constructor
  · have hitems' : (t.eraseByIndex index).items = wrapSub t.items 1 := by
      unfold RawTable.eraseByIndex
      split <;> rfl
    rw [hitems']
    exact wrapSub_eq_sub hitems hitemsU (by norm_num [U64])
  constructor
  · intro hR
    have hcond : groupWidth ≤
        leadingZeros (matchEmpty (groupLoad t.ctrl (wrapSub index groupWidth &&& t.bucketMask)))
          + trailingZeros (matchEmpty (groupLoad t.ctrl index)) := by
      rw [leadingZeros_matchEmpty, trailingZeros_matchEmpty]
      exact hR
    have hctrl : (t.eraseByIndex index).ctrl
        = (t.ctrl.set index DELETED).set (RawTable.mirrorIdx t.bucketMask index) DELETED := by
      show (if _ then _ else _ : RawTable K V).ctrl = _
      rw [if_pos hcond]
      rfl
    have hgrowth : (t.eraseByIndex index).growthLeft = t.growthLeft := by
      show (if _ then _ else _ : RawTable K V).growthLeft = _
      rw [if_pos hcond]
      rfl
    refine ⟨?_, hgrowth⟩
    show ((t.eraseByIndex index).ctrl).getD index 0 = DELETED
    rw [hctrl]
    exact getD_set_pair _ _ _ _ _ hilen
  · intro hR
    have hcond : ¬ (groupWidth ≤
        leadingZeros (matchEmpty (groupLoad t.ctrl (wrapSub index groupWidth &&& t.bucketMask)))
          + trailingZeros (matchEmpty (groupLoad t.ctrl index))) := by
      rw [leadingZeros_matchEmpty, trailingZeros_matchEmpty]
      omega
    have hctrl : (t.eraseByIndex index).ctrl
        = (t.ctrl.set index EMPTY).set (RawTable.mirrorIdx t.bucketMask index) EMPTY := by
      show (if _ then _ else _ : RawTable K V).ctrl = _
      rw [if_neg hcond]
      rfl
    have hgrowth : (t.eraseByIndex index).growthLeft = incr t.growthLeft := by
      show (if _ then _ else _ : RawTable K V).growthLeft = _
      rw [if_neg hcond]
    refine ⟨?_, by rw [hgrowth]; exact incr_eq_succ hgrow⟩
    show ((t.eraseByIndex index).ctrl).getD index 0 = EMPTY
    rw [hctrl]
    exact getD_set_pair _ _ _ _ _ hilen

/-- C6 as literally claimed is false: in `c6table`, erasing full index 16 with
only 2 `EMPTY` bytes across the two groups (so the claim demands `DELETED` and
an unchanged `growth_left`) actually yields `EMPTY` and `growth_left + 1`,
because the code tests the non-empty run lengths, not the `EMPTY` counts. -/
theorem erase_empty_count_rule_fails :
    countEmptyBytes (groupLoad c6table.ctrl (wrapSub 16 groupWidth &&& c6table.bucketMask))
        + countEmptyBytes (groupLoad c6table.ctrl 16) < groupWidth ∧
    isFull (c6table.ctrlAt 16) = true ∧
    (c6table.eraseByIndex 16).ctrlAt 16 = EMPTY ∧
    (c6table.eraseByIndex 16).growthLeft = c6table.growthLeft + 1 ∧
    EMPTY ≠ DELETED := by
  refine ⟨by decide, by decide, by decide, by decide, by decide⟩

/-- Witness for the amended C6 at `c6table`, index 16 (the `EMPTY` branch:
the two non-empty runs around index 16 have lengths 7 and 1). -/
theorem erase_by_index_spec_witness :
    isFull (c6table.ctrlAt 16) = true ∧ 16 < c6table.buckets ∧
    c6table.buckets + groupWidth ≤ c6table.ctrl.length ∧
    1 ≤ c6table.items ∧ c6table.items < U64 ∧ c6table.growthLeft + 1 < U64 ∧
    ((c6table.eraseByIndex 16).items = c6table.items - 1 ∧
      (groupWidth ≤ runNonEmptyEnd (groupLoad c6table.ctrl
            (wrapSub 16 groupWidth &&& c6table.bucketMask))
          + runNonEmptyStart (groupLoad c6table.ctrl 16) →
        (c6table.eraseByIndex 16).ctrlAt 16 = DELETED ∧
        (c6table.eraseByIndex 16).growthLeft = c6table.growthLeft) ∧
      (runNonEmptyEnd (groupLoad c6table.ctrl
            (wrapSub 16 groupWidth &&& c6table.bucketMask))
          + runNonEmptyStart (groupLoad c6table.ctrl 16) < groupWidth →
        (c6table.eraseByIndex 16).ctrlAt 16 = EMPTY ∧
        (c6table.eraseByIndex 16).growthLeft = c6table.growthLeft + 1)) :=
  ⟨by decide, by decide, by decide, by decide, by decide, by decide,
    erase_by_index_spec c6table 16 (by decide) (by decide) (by decide)
      (by decide) (by decide) (by decide)⟩

/-! ## Bitmask and triangular-number arithmetic (towards C8, C1, C2) -/

theorem land_two_pow_sub_one (x m : Nat) : x &&& (2 ^ m - 1) = x % 2 ^ m := by
  apply Nat.eq_of_testBit_eq
  intro i
  rw [Nat.testBit_and, Nat.testBit_mod_two_pow, Nat.testBit_two_pow_sub_one]
  exact Bool.and_comm _ _

theorem two_mul_triangular (n : Nat) : 2 * triangular n = n * (n + 1) := by
  obtain ⟨c, hc⟩ := Nat.even_mul_succ_self n
  unfold triangular
  omega

theorem triangular_mono {i k : Nat} (h : i ≤ k) : triangular i ≤ triangular k :=
  Nat.div_le_div_right (Nat.mul_le_mul h (by omega))

/-- Triangular numbers are injective modulo a power of two — the heart of the
claim that triangular probing visits every group of a power-of-two table
exactly once. -/
theorem triangular_inj (m : Nat) :
    ∀ i k, i ≤ k → k < 2 ^ m →
      triangular i % 2 ^ m = triangular k % 2 ^ m → i = k := by
  intro i k hik hk h
  by_contra hne
  have hik' : i < k := lt_of_le_of_ne hik hne
  have hTle : triangular i ≤ triangular k := triangular_mono hik
  have hdvd : 2 ^ m ∣ triangular k - triangular i := (Nat.modEq_iff_dvd' hTle).mp h
  obtain ⟨c, hc⟩ := hdvd
  have hkey : triangular i * 2 + (k - i) * (k + i + 1) = triangular k * 2 := by
    have h1 : 2 * triangular i = i * (i + 1) := two_mul_triangular i
    obtain ⟨d, rfl⟩ : ∃ d, k = i + d + 1 := ⟨k - i - 1, by omega⟩
    have h2 : 2 * triangular (i + d + 1) = (i + d + 1) * (i + d + 1 + 1) :=
      two_mul_triangular (i + d + 1)
    have h3 : i + d + 1 - i = d + 1 := by omega
    rw [h3]
    have h4 : i * (i + 1) + (d + 1) * (i + d + 1 + i + 1) = (i + d + 1) * (i + d + 1 + 1) := by
      ring
    omega
  have hck : triangular k = triangular i + 2 ^ m * c := by omega
  have hprod : (k - i) * (k + i + 1) = 2 ^ (m + 1) * c := by
    have hp : 2 ^ (m + 1) * c = 2 * (2 ^ m * c) := by ring
    omega
  have hdlt : k - i < 2 ^ m := by omega
  have hslt : k + i + 1 < 2 ^ (m + 1) := by
    have hp : 2 ^ (m + 1) = 2 * 2 ^ m := by ring
    omega
  have h2dvd : 2 ^ (m + 1) ∣ (k - i) * (k + i + 1) := ⟨c, hprod⟩
  rcases Nat.even_or_odd (k - i) with he | ho
  · -- k − i even forces k + i + 1 odd
    have hodd : Odd (k + i + 1) := by
      rcases he with ⟨a, ha⟩
      exact ⟨i + a, by omega⟩
    have hcop : Nat.Coprime (2 ^ (m + 1)) (k + i + 1) :=
      (Nat.coprime_two_left.mpr hodd).pow_left (m + 1)
    have hdd : 2 ^ (m + 1) ∣ (k - i) :=
      (Nat.Coprime.dvd_of_dvd_mul_right hcop) h2dvd
    have : 2 ^ (m + 1) ≤ k - i := Nat.le_of_dvd (by omega) hdd
    have hp : 2 ^ (m + 1) = 2 * 2 ^ m := by ring
    omega
  · have hcop : Nat.Coprime (2 ^ (m + 1)) (k - i) :=
      (Nat.coprime_two_left.mpr ho).pow_left (m + 1)
    have hdd : 2 ^ (m + 1) ∣ (k + i + 1) :=
      (Nat.Coprime.dvd_of_dvd_mul_left hcop) h2dvd
    have : 2 ^ (m + 1) ≤ k + i + 1 := Nat.le_of_dvd (by omega) hdd
    omega

/-! ## The probe sequence in closed form -/

theorem land_mask {m : Nat} (mask x : Nat) (hmask : mask + 1 = 2 ^ m) :
    x &&& mask = x % (mask + 1) := by
  have h1 : mask = 2 ^ m - 1 := by omega
  rw [h1, land_two_pow_sub_one]
  have h2 : 2 ^ m - 1 + 1 = 2 ^ m := by
    have := Nat.pos_pow_of_pos m (by omega : 0 < 2)
    omega
  rw [h2]

theorem triangular_succ (n : Nat) : triangular (n + 1) = triangular n + (n + 1) := by
  have h1 := two_mul_triangular n
  have h2 := two_mul_triangular (n + 1)
  have h3 : (n + 1) * (n + 1 + 1) = n * (n + 1) + 2 * (n + 1) := by ring
  omega

theorem probeAux_closed {m : Nat} (mask : Nat) (hmask : mask + 1 = 2 ^ m) :
    ∀ (fuel j pos : Nat), pos < mask + 1 → numProbes mask ≤ j + fuel →
      probeAux mask pos (j * groupWidth) fuel
        = (List.range (numProbes mask - j)).map
            (fun i => (pos + groupWidth * (triangular (j + i) - triangular j)) % (mask + 1)) := by
  intro fuel
  induction fuel with
  | zero =>
    intro j pos _ hfuel
    have h0 : numProbes mask - j = 0 := by omega
    rw [h0]
    rfl
  | succ fuel ih =>
    intro j pos hpos hfuel
    show (if mask ≤ j * groupWidth then [] else _) = _
    by_cases hstop : mask ≤ j * groupWidth
    · rw [if_pos hstop]
      have h0 : numProbes mask - j = 0 := by
        have hW : groupWidth = 16 := rfl
        rw [hW] at hstop
        unfold numProbes
        rw [hW]
        omega
      rw [h0]
      rfl
    · rw [if_neg hstop]
      have hjlt : j < numProbes mask := by
        have hW : groupWidth = 16 := rfl
        rw [hW] at hstop
        unfold numProbes
        rw [hW]
        omega
      have hstep : (pos + (j * groupWidth + groupWidth)) &&& mask
          = (pos + (j + 1) * groupWidth) % (mask + 1) := by
        rw [land_mask _ _ hmask]
        congr 1
        ring
      rw [hstep]
      rw [show j * groupWidth + groupWidth = (j + 1) * groupWidth from by ring]
      rw [ih (j + 1) ((pos + (j + 1) * groupWidth) % (mask + 1))
        (Nat.mod_lt _ (by omega)) (by omega)]
      have hnum : numProbes mask - j = (numProbes mask - (j + 1)) + 1 := by omega
      rw [hnum, List.range_succ_eq_map, List.map_cons, List.map_map]
      congr 1
      · have ht : triangular (j + 0) - triangular j = 0 := by
          simp [triangular]
        rw [ht, Nat.mul_zero, Nat.add_zero, Nat.mod_eq_of_lt hpos]
      · apply List.map_congr_left
        intro i _
        show ((pos + (j + 1) * groupWidth) % (mask + 1)
            + groupWidth * (triangular (j + 1 + i) - triangular (j + 1))) % (mask + 1)
          = (pos + groupWidth * (triangular (j + (i + 1)) - triangular j)) % (mask + 1)
        rw [Nat.mod_add_mod]
        congr 1
        have hmono : triangular (j + 1) ≤ triangular (j + 1 + i) :=
          triangular_mono (by omega)
        have hsucc : triangular (j + 1) = triangular j + (j + 1) := triangular_succ j
        have hidx : j + (i + 1) = j + 1 + i := by omega
        rw [hidx]
        have hsum : (j + 1) + (triangular (j + 1 + i) - triangular (j + 1))
            = triangular (j + 1 + i) - triangular j := by omega
        calc pos + (j + 1) * groupWidth
              + groupWidth * (triangular (j + 1 + i) - triangular (j + 1))
            = pos + groupWidth * ((j + 1) + (triangular (j + 1 + i) - triangular (j + 1))) := by
              ring
          _ = pos + groupWidth * (triangular (j + 1 + i) - triangular j) := by rw [hsum]

theorem probeSeq_closed {m : Nat} (mask hsh : Nat) (hmask : mask + 1 = 2 ^ m) :
    probeSeq mask hsh = (List.range (numProbes mask)).map
      (fun i => (h1 hsh % (mask + 1) + groupWidth * triangular i) % (mask + 1)) := by
  unfold probeSeq
  rw [land_mask _ _ hmask]
  have hfuel : numProbes mask ≤ 0 + (mask / groupWidth + 1) := by
    unfold numProbes groupWidth
    omega
  have h := probeAux_closed mask hmask (mask / groupWidth + 1) 0 (h1 hsh % (mask + 1))
    (Nat.mod_lt _ (by omega)) hfuel
  have h0 : (0 : Nat) * groupWidth = 0 := by ring
  rw [h0] at h
  rw [h]
  simp [triangular]

theorem probeSeq_length {m : Nat} (mask hsh : Nat) (hmask : mask + 1 = 2 ^ m) :
    (probeSeq mask hsh).length = numProbes mask := by
  rw [probeSeq_closed mask hsh hmask]
  simp

theorem numProbes_le_buckets (mask : Nat) : numProbes mask ≤ mask + 1 := by
  unfold numProbes groupWidth
  omega

theorem probeSeq_mem_lt {m : Nat} (mask hsh p : Nat) (hmask : mask + 1 = 2 ^ m)
    (hp : p ∈ probeSeq mask hsh) : p < mask + 1 := by
  rw [probeSeq_closed mask hsh hmask] at hp
  obtain ⟨i, _, rfl⟩ := List.mem_map.mp hp
  exact Nat.mod_lt _ (by omega)

theorem numProbes_of_big {m' : Nat} (mask : Nat) (hmask : mask + 1 = 16 * 2 ^ m') :
    numProbes mask = 2 ^ m' := by
  have hpos : 0 < 2 ^ m' := Nat.pos_pow_of_pos m' (by omega)
  unfold numProbes groupWidth
  omega

theorem probeSeq_nodup {m : Nat} (mask hsh : Nat) (hmask : mask + 1 = 2 ^ m) :
    (probeSeq mask hsh).Nodup := by
  rw [probeSeq_closed mask hsh hmask]
  apply List.Nodup.map_on ?_ (List.nodup_range _)
  intro x hx y hy hxy
  rw [List.mem_range] at hx hy
  by_cases hsmall : mask + 1 ≤ 16
  · have : numProbes mask ≤ 1 := by
      unfold numProbes groupWidth
      omega
    omega
  · -- mask + 1 = 2 ^ m > 16, so m = m' + 4 and the bucket count is 16 * 2 ^ m'
    have hm4 : 4 < m := by
      by_contra hle
      have : (2 : Nat) ^ m ≤ 2 ^ 4 := Nat.pow_le_pow_right (by omega) (by omega)
      omega
    obtain ⟨m', rfl⟩ : ∃ m', m = m' + 4 := ⟨m - 4, by omega⟩
    have hb : mask + 1 = 16 * 2 ^ m' := by
      rw [hmask, pow_add]
      ring
    have hnp : numProbes mask = 2 ^ m' := numProbes_of_big mask hb
    rw [hnp] at hx hy
    -- cancel the common start, then the factor 16
    have hmodeq : (groupWidth * triangular x) % (mask + 1)
        = (groupWidth * triangular y) % (mask + 1) := by
      have h := Nat.ModEq.add_left_cancel' (h1 hsh % (mask + 1)) (hxy : _ ≡ _ [MOD mask + 1])
      exact h
    have hW : groupWidth = 16 := rfl
    rw [hW, hb] at hmodeq
    rw [Nat.mul_mod_mul_left, Nat.mul_mod_mul_left] at hmodeq
    have hmod : triangular x % 2 ^ m' = triangular y % 2 ^ m' :=
      Nat.eq_of_mul_eq_mul_left (by omega) hmodeq
    rcases Nat.le_total x y with hle | hle
    · exact triangular_inj m' x y hle hy hmod
    · exact (triangular_inj m' y x hle hx hmod.symm).symm

/-! ## Probe coverage: the windows tile the table -/

theorem probeSeq_mem_residue {m' : Nat} (mask hsh p : Nat)
    (hmask : mask + 1 = 16 * 2 ^ m') (hp : p ∈ probeSeq mask hsh) :
    p % 16 = (h1 hsh % (mask + 1)) % 16 := by
  have hm : mask + 1 = 2 ^ (m' + 4) := by
    rw [pow_add]
    omega
  rw [probeSeq_closed mask hsh hm] at hp
  obtain ⟨i, _, rfl⟩ := List.mem_map.mp hp
  have h16 : (16 : Nat) ∣ mask + 1 := ⟨2 ^ m', hmask⟩
  rw [Nat.mod_mod_of_dvd _ h16]
  rw [show groupWidth = 16 from rfl]
  exact Nat.add_mul_mod_self_left _ 16 _

theorem card_filter_range_mod (n r : Nat) (hr : r < 16) :
    ((Finset.range (16 * n)).filter (fun x => x % 16 = r)).card = n := by
  calc ((Finset.range (16 * n)).filter (fun x => x % 16 = r)).card
      = (Finset.range n).card := by
        apply Finset.card_nbij' (fun a => a / 16) (fun c => 16 * c + r)
        · intro a ha
          simp only [Finset.mem_filter, Finset.mem_range] at ha ⊢
          omega
        · intro c hc
          simp only [Finset.mem_filter, Finset.mem_range] at hc ⊢
          omega
        · intro a ha
          simp only [Finset.mem_filter, Finset.mem_range] at ha
          omega
        · intro c hc
          simp only [Finset.mem_range] at hc
          omega
    _ = n := Finset.card_range n

theorem probeSeq_toFinset_eq {m' : Nat} (mask hsh : Nat)
    (hmask : mask + 1 = 16 * 2 ^ m') :
    (probeSeq mask hsh).toFinset
      = (Finset.range (mask + 1)).filter
          (fun x => x % 16 = (h1 hsh % (mask + 1)) % 16) := by
  have hm : mask + 1 = 2 ^ (m' + 4) := by
    rw [pow_add]
    omega
  apply Finset.eq_of_subset_of_card_le
  · intro p hp
    rw [List.mem_toFinset] at hp
    rw [Finset.mem_filter, Finset.mem_range]
    exact ⟨probeSeq_mem_lt mask hsh p hm hp, probeSeq_mem_residue mask hsh p hmask hp⟩
  · have hcardP : (probeSeq mask hsh).toFinset.card = 2 ^ m' := by
      rw [List.toFinset_card_of_nodup (probeSeq_nodup mask hsh hm),
        probeSeq_length mask hsh hm, numProbes_of_big mask hmask]
    have hcardS : ((Finset.range (mask + 1)).filter
        (fun x => x % 16 = (h1 hsh % (mask + 1)) % 16)).card = 2 ^ m' := by
      rw [hmask]
      exact card_filter_range_mod _ _ (Nat.mod_lt _ (by omega))
    rw [hcardP, hcardS]

/-- Every bucket index is covered by some probed window, and the byte the
window reads there is never one of the uninitialised filler bytes of a
small table (`buckets ≤ j < groupWidth`). -/
theorem probeSeq_covers {m : Nat} (mask hsh v : Nat) (hmask : mask + 1 = 2 ^ m)
    (hm1 : 1 ≤ mask) (hv : v < mask + 1) :
    ∃ p ∈ probeSeq mask hsh, ∃ off < groupWidth,
      (p + off) % (mask + 1) = v ∧ ¬(mask + 1 ≤ p + off ∧ p + off < groupWidth) := by
  have hW : groupWidth = 16 := rfl
  set p0 := h1 hsh % (mask + 1) with hp0
  have hp0lt : p0 < mask + 1 := Nat.mod_lt _ (by omega)
  by_cases hsmall : mask + 1 ≤ 16
  · -- one probe; its window of width 16 covers the whole table
    have hnum : numProbes mask = 1 := by
      unfold numProbes groupWidth
      omega
    have hmem : p0 ∈ probeSeq mask hsh := by
      rw [probeSeq_closed mask hsh hmask, hnum]
      simp [triangular, Nat.mod_eq_of_lt hp0lt]
    have hdvd : (mask + 1) ∣ 16 := by
      have hm4 : m ≤ 4 := by
        by_contra hgt
        have : (2 : Nat) ^ 5 ≤ 2 ^ m := Nat.pow_le_pow_right (by omega) (by omega)
        omega
      rw [hmask]
      exact (Nat.pow_dvd_pow 2 hm4).trans (by norm_num)
    rcases Nat.le_total p0 v with hle | hle
    · refine ⟨p0, hmem, v - p0, by omega, ?_, by omega⟩
      rw [show p0 + (v - p0) = v from by omega]
      exact Nat.mod_eq_of_lt hv
    · by_cases hpv : v = p0
      · refine ⟨p0, hmem, 0, by omega, ?_, by omega⟩
        rw [Nat.add_zero, ← hpv]
        exact Nat.mod_eq_of_lt hv
      · refine ⟨p0, hmem, v + 16 - p0, by omega, ?_, by omega⟩
        rw [show p0 + (v + 16 - p0) = v + 16 from by omega]
        obtain ⟨k, hk⟩ := hdvd
        rw [hk, Nat.add_mul_mod_self_left]
        exact Nat.mod_eq_of_lt hv
  · -- large table: the probed positions are exactly the residue class of p0
    have hm4 : 4 < m := by
      by_contra hle
      have : (2 : Nat) ^ m ≤ 2 ^ 4 := Nat.pow_le_pow_right (by omega) (by omega)
      omega
    obtain ⟨m', rfl⟩ : ∃ m', m = m' + 4 := ⟨m - 4, by omega⟩
    have hb : mask + 1 = 16 * 2 ^ m' := by
      rw [hmask, pow_add]
      ring
    set r := p0 % 16 with hr
    set ρ := (v + 16 - r) % 16 with hρ
    have hrlt : r < 16 := Nat.mod_lt _ (by omega)
    have hρlt : ρ < 16 := Nat.mod_lt _ (by omega)
    have hmem_of : ∀ x, x < mask + 1 → x % 16 = r → x ∈ probeSeq mask hsh := by
      intro x hx1 hx2
      have := probeSeq_toFinset_eq mask hsh hb
      have hx : x ∈ (Finset.range (mask + 1)).filter
          (fun y => y % 16 = (h1 hsh % (mask + 1)) % 16) := by
        rw [Finset.mem_filter, Finset.mem_range]
        exact ⟨hx1, hx2⟩
      rw [← this, List.mem_toFinset] at hx
      exact hx
    rcases Nat.lt_or_ge v ρ with hlt | hge
    · refine ⟨v + (mask + 1) - ρ, hmem_of _ (by omega) (by omega), ρ, by omega, ?_, ?_⟩
      · rw [show v + (mask + 1) - ρ + ρ = v + (mask + 1) from by omega,
          Nat.add_mod_right]
        exact Nat.mod_eq_of_lt hv
      · omega
    · refine ⟨v - ρ, hmem_of _ (by omega) (by omega), ρ, by omega, ?_, by omega⟩
      rw [show v - ρ + ρ = v from by omega]
      exact Nat.mod_eq_of_lt hv

/-- At most one probed position's window covers a given bucket index. -/
theorem probeSeq_covers_unique {m : Nat} (mask hsh v p q : Nat)
    (hmask : mask + 1 = 2 ^ m)
    (hp : p ∈ probeSeq mask hsh) (hq : q ∈ probeSeq mask hsh)
    (hcp : ∃ off < groupWidth, (p + off) % (mask + 1) = v)
    (hcq : ∃ off < groupWidth, (q + off) % (mask + 1) = v) : p = q := by
  have hW : groupWidth = 16 := rfl
  obtain ⟨o1, ho1, hv1⟩ := hcp
  obtain ⟨o2, ho2, hv2⟩ := hcq
  have hplt : p < mask + 1 := probeSeq_mem_lt mask hsh p hmask hp
  have hqlt : q < mask + 1 := probeSeq_mem_lt mask hsh q hmask hq
  by_cases hsmall : mask + 1 ≤ 16
  · -- a single probed position
    have hnum : numProbes mask ≤ 1 := by
      unfold numProbes groupWidth
      omega
    have hlen : (probeSeq mask hsh).length ≤ 1 := by
      rw [probeSeq_length mask hsh hmask]
      exact hnum
    cases hl : probeSeq mask hsh with
    | nil => rw [hl] at hp; cases hp
    | cons a tl =>
      rw [hl] at hp hq hlen
      simp only [List.length_cons] at hlen
      have htl : tl = [] := List.eq_nil_of_length_eq_zero (by omega)
      rw [htl] at hp hq
      simp only [List.mem_singleton] at hp hq
      rw [hp, hq]
  · have hm4 : 4 < m := by
      by_contra hle
      have : (2 : Nat) ^ m ≤ 2 ^ 4 := Nat.pow_le_pow_right (by omega) (by omega)
      omega
    obtain ⟨m', rfl⟩ : ∃ m', m = m' + 4 := ⟨m - 4, by omega⟩
    have hb : mask + 1 = 16 * 2 ^ m' := by
      rw [hmask, pow_add]
      ring
    have hrp := probeSeq_mem_residue mask hsh p hb hp
    have hrq := probeSeq_mem_residue mask hsh q hb hq
    have hcases : ∀ x, x < (mask + 1) + 16 → x % (mask + 1) = v →
        x = v ∨ x = v + (mask + 1) := by
      intro x hx hxv
      by_cases hxb : x < mask + 1
      · left
        rw [← hxv]
        exact (Nat.mod_eq_of_lt hxb).symm
      · right
        have hx' : x - (mask + 1) < mask + 1 := by omega
        have : x % (mask + 1) = x - (mask + 1) := by
          rw [Nat.mod_eq_sub_mod (by omega)]
          exact Nat.mod_eq_of_lt hx'
        omega
    have hvlt : v < mask + 1 := by
      rw [← hv1]
      exact Nat.mod_lt _ (by omega)
    rcases hcases (p + o1) (by omega) hv1 with h1 | h1 <;>
      rcases hcases (q + o2) (by omega) hv2 with h2 | h2 <;>
      omega

/-! ## Bitmask search and window-byte lemmas -/

theorem lowestSetBit_isSome_of_getD {l : List Bool} {i : Nat}
    (hi : i < l.length) (h : l.getD i false = true) : (lowestSetBit l).isSome := by
  induction l generalizing i with
  | nil => simp at hi
  | cons b tl ih =>
    unfold lowestSetBit
    cases hb : b with
    | true => simp
    | false =>
      cases i with
      | zero => rw [List.getD_cons_zero] at h; rw [h] at hb; cases hb
      | succ i =>
        rw [List.getD_cons_succ] at h
        simp only [Bool.false_eq_true, if_false]
        have hrec := ih (by simpa using hi) h
        cases hL : lowestSetBit tl with
        | none => rw [hL] at hrec; cases hrec
        | some j => rfl

theorem lowestSetBit_spec {l : List Bool} {i : Nat} (h : lowestSetBit l = some i) :
    i < l.length ∧ l.getD i false = true := by
  induction l generalizing i with
  | nil => cases h
  | cons b tl ih =>
    unfold lowestSetBit at h
    cases hb : b with
    | true =>
      rw [hb] at h
      simp only [if_true] at h
      cases h
      simp
    | false =>
      rw [hb] at h
      simp only [Bool.false_eq_true, if_false] at h
      obtain ⟨j, hj, rfl⟩ := Option.map_eq_some'.mp h
      obtain ⟨h1, h2⟩ := ih hj
      exact ⟨by simpa using h1, by simpa using h2⟩

theorem findSome?_isSome_of_mem {α β : Type _} {l : List α} {f : α → Option β}
    {x : α} (hx : x ∈ l) (h : (f x).isSome) : (l.findSome? f).isSome := by
  induction l with
  | nil => cases hx
  | cons a tl ih =>
    rw [List.findSome?_cons]
    cases hfa : f a with
    | some b => simp
    | none =>
      rcases List.mem_cons.mp hx with rfl | hmem
      · rw [hfa] at h; cases h
      · exact ih hmem

theorem groupLoad_length (bytes : List Nat) (i : Nat) :
    (groupLoad bytes i).length = groupWidth := by
  simp [groupLoad]

theorem groupLoad_getD (bytes : List Nat) (i off : Nat) (hoff : off < groupWidth) :
    (groupLoad bytes i).getD off 0 = bytes.getD (i + off) 0 := by
  unfold groupLoad
  rw [List.getD_eq_getElem?_getD, List.getElem?_map, List.getElem?_range hoff]
  rfl

theorem matchEOD_getD (g : List Nat) (off : Nat) (hoff : off < g.length) :
    (matchEmptyOrDeleted g).getD off false = (g.getD off 0 &&& 0x80 != 0) := by
  unfold matchEmptyOrDeleted
  rw [List.getD_eq_getElem?_getD, List.getElem?_map, List.getElem?_eq_getElem hoff,
    List.getD_eq_getElem?_getD, List.getElem?_eq_getElem hoff]
  rfl

theorem matchByte_getD (g : List Nat) (b off : Nat) (hoff : off < g.length) :
    (matchByte g b).getD off false = (g.getD off 0 == b) := by
  unfold matchByte
  rw [List.getD_eq_getElem?_getD, List.getElem?_map, List.getElem?_eq_getElem hoff,
    List.getD_eq_getElem?_getD, List.getElem?_eq_getElem hoff]
  rfl

/-- The byte a probe window reads at absolute index `j` is the masked bucket's
byte, except on a small table's uninitialised filler, where it is `fv`. -/
theorem window_byte_gen (g : Nat → Nat) (bkt fv : Nat) {m : Nat} (hbkt : bkt = 2 ^ m)
    (hbig : groupWidth ≤ bkt → ∀ jj < groupWidth, g (bkt + jj) = g jj)
    (hsmall : bkt < groupWidth →
      (∀ jj, bkt ≤ jj → jj < groupWidth → g jj = fv) ∧
      (∀ jj < bkt, g (groupWidth + jj) = g jj))
    (j : Nat) (hj : j < bkt + groupWidth) :
    g j = g (j % bkt) ∨ (bkt ≤ j ∧ j < groupWidth ∧ g j = fv) := by
  have hW : groupWidth = 16 := rfl
  have hpos : 0 < bkt := by
    rw [hbkt]
    exact Nat.pos_pow_of_pos m (by omega)
  by_cases hjb : j < bkt
  · left
    rw [Nat.mod_eq_of_lt hjb]
  · by_cases hbw : groupWidth ≤ bkt
    · left
      have hj2 : j - bkt < groupWidth := by omega
      have := hbig hbw (j - bkt) hj2
      rw [show bkt + (j - bkt) = j from by omega] at this
      rw [this]
      congr 1
      rw [Nat.mod_eq_sub_mod (by omega), Nat.mod_eq_of_lt (by omega)]
    · have hsm := hsmall (by omega)
      by_cases hjw : j < groupWidth
      · right
        exact ⟨by omega, hjw, hsm.1 j (by omega) hjw⟩
      · left
        have hdvd : bkt ∣ groupWidth := by
          have hm4 : m ≤ 4 := by
            by_contra hgt
            have : (2 : Nat) ^ 5 ≤ 2 ^ m := Nat.pow_le_pow_right (by omega) (by omega)
            omega
          rw [hbkt, hW, show (16 : Nat) = 2 ^ 4 from rfl]
          exact Nat.pow_dvd_pow 2 hm4
        have hj2 : j - groupWidth < bkt := by omega
        have hgj := hsm.2 (j - groupWidth) hj2
        rw [show groupWidth + (j - groupWidth) = j from by omega] at hgj
        obtain ⟨k, hk⟩ := hdvd
        have hjeq : j = (j - groupWidth) + bkt * k := by omega
        have hmod : j % bkt = j - groupWidth := by
          conv_lhs => rw [hjeq]
          rw [Nat.add_mul_mod_self_left, Nat.mod_eq_of_lt hj2]
        rw [hmod]
        exact hgj

/-- Specialisation of `window_byte_gen` to the control stream. -/
theorem ctrl_window_byte {K V : Type} (t : RawTable K V) {m : Nat}
    (hmask : t.bucketMask + 1 = 2 ^ m) (hrep : t.CtrlReplicaOk)
    (j : Nat) (hj : j < t.buckets + groupWidth) :
    t.ctrlAt j = t.ctrlAt (j % t.buckets) ∨
      (t.buckets ≤ j ∧ j < groupWidth ∧ t.ctrlAt j = EMPTY) :=
  window_byte_gen t.ctrlAt t.buckets EMPTY hmask hrep.1
    (fun hs => (hrep.2 hs)) j hj

/-- Specialisation of `window_byte_gen` to the meta stream. -/
theorem meta_window_byte {K V : Type} (t : RawTable K V) {m : Nat}
    (hmask : t.bucketMask + 1 = 2 ^ m) (hrep : t.MetaReplicaOk)
    (j : Nat) (hj : j < t.buckets + groupWidth) :
    t.metaAt j = t.metaAt (j % t.buckets) ∨
      (t.buckets ≤ j ∧ j < groupWidth ∧ t.metaAt j = SAFE) :=
  window_byte_gen t.metaAt t.buckets SAFE hmask hrep.1
    (fun hs => (hrep.2 hs)) j hj

theorem matchEOD_length (g : List Nat) : (matchEmptyOrDeleted g).length = g.length := by
  simp [matchEmptyOrDeleted]

theorem matchByte_length (g : List Nat) (b : Nat) : (matchByte g b).length = g.length := by
  simp [matchByte]

theorem isFull_false_of_special {c : Nat} (h : (c &&& 0x80 != 0) = true) :
    isFull c = false := by
  unfold isFull
  simpa using h

/-! ## Claim C8: the probe sequence -/

theorem notFull_bne {c : Nat} (h : isFull c = false) : (c &&& 0x80 != 0) = true := by
  unfold isFull at h
  show (!(c &&& 128 == 0)) = true
  rw [h]
  rfl

theorem bne_notFull {c : Nat} (h : (c &&& 0x80 != 0) = true) : isFull c = false := by
  unfold isFull
  have h' : (!(c &&& 128 == 0)) = true := h
  cases hb : (c &&& 128 == 0) with
  | false => rfl
  | true => rw [hb] at h'; cases h'

theorem findInsertSlot_isSome {K V : Type} (t : RawTable K V) (hsh : Nat) {m : Nat}
    (hmask : t.bucketMask + 1 = 2 ^ m) (hm1 : 1 ≤ t.bucketMask)
    (hrep : t.CtrlReplicaOk)
    (hempty : ∃ i < t.buckets, isFull (t.ctrlAt i) = false) :
    (t.findInsertSlot hsh).isSome = true := by
  have hbuck : t.buckets = t.bucketMask + 1 := rfl
  obtain ⟨i, hi, hie⟩ := hempty
  obtain ⟨p, hpmem, off, hoff, hv, hgood⟩ :=
    probeSeq_covers t.bucketMask hsh i hmask hm1 (hbuck ▸ hi)
  have hplt : p < t.bucketMask + 1 := probeSeq_mem_lt _ _ _ hmask hpmem
  have hjlt : p + off < t.buckets + groupWidth := by
    rw [hbuck]
    omega
  have hbyte : isFull (t.ctrlAt (p + off)) = false := by
    rcases ctrl_window_byte t hmask hrep (p + off) hjlt with hcase | hcase
    · rw [hcase, hbuck, hv]
      exact hie
    · exact absurd ⟨hbuck ▸ hcase.1, hcase.2.1⟩ hgood
  have hmatch : (matchEmptyOrDeleted (groupLoad t.ctrl p)).getD off false = true := by
    rw [matchEOD_getD _ _ (by rw [groupLoad_length]; exact hoff),
      groupLoad_getD _ _ _ hoff]
    show (t.ctrlAt (p + off) &&& 0x80 != 0) = true
    exact notFull_bne hbyte
  have hsome : ((lowestSetBit (matchEmptyOrDeleted (groupLoad t.ctrl p))).map
      (fun bit => (p, bit))).isSome = true := by
    have hs := lowestSetBit_isSome_of_getD
      (by rw [matchEOD_length, groupLoad_length]; exact hoff) hmatch
    obtain ⟨bit, hbit⟩ := Option.isSome_iff_exists.mp hs
    rw [hbit]
    rfl
  have hfind := findSome?_isSome_of_mem
    (f := fun pos => (lowestSetBit (matchEmptyOrDeleted (groupLoad t.ctrl pos))).map
      (fun bit => (pos, bit))) hpmem hsome
  obtain ⟨pb, hps⟩ := Option.isSome_iff_exists.mp hfind
  obtain ⟨pos, bit⟩ := pb
  obtain ⟨pos', hpos'mem, hpos'⟩ := List.exists_of_findSome?_eq_some hps
  obtain ⟨bit', hbit', heq⟩ := Option.map_eq_some'.mp hpos'
  have hpp : pos' = pos := congrArg Prod.fst heq
  have hbb : bit' = bit := congrArg Prod.snd heq
  subst hpp
  subst hbb
  have hposlt : pos' < t.bucketMask + 1 := probeSeq_mem_lt _ _ _ hmask hpos'mem
  have hspec := lowestSetBit_spec hbit'
  have hbitW : bit' < groupWidth := by
    have := hspec.1
    rwa [matchEOD_length, groupLoad_length] at this
  have hbyte2 : (t.ctrlAt (pos' + bit') &&& 0x80 != 0) = true := by
    have h2 := hspec.2
    rwa [matchEOD_getD _ _ (by rw [groupLoad_length]; exact hbitW),
      groupLoad_getD _ _ _ hbitW] at h2
  unfold RawTable.findInsertSlot
  rw [hps]
  show (if isFull (t.ctrlAt ((pos' + bit') &&& t.bucketMask)) = true then
      lowestSetBit (matchEmptyOrDeleted (groupLoad t.ctrl 0))
    else some ((pos' + bit') &&& t.bucketMask)).isSome = true
  by_cases hfull : isFull (t.ctrlAt ((pos' + bit') &&& t.bucketMask)) = true
  · rw [if_pos hfull]
    have hres : (pos' + bit') &&& t.bucketMask = (pos' + bit') % (t.bucketMask + 1) :=
      land_mask _ _ hmask
    rcases ctrl_window_byte t hmask hrep (pos' + bit') (by rw [hbuck]; omega) with hc | hc
    · exfalso
      rw [hres] at hfull
      rw [hbuck] at hc
      rw [← hc] at hfull
      rw [isFull_false_of_special hbyte2] at hfull
      cases hfull
    · have hbW : t.buckets < groupWidth := by
        have h1 := hc.1
        have h2 := hc.2.1
        omega
      apply lowestSetBit_isSome_of_getD (i := i)
      · rw [matchEOD_length, groupLoad_length]
        omega
      · rw [matchEOD_getD _ _ (by rw [groupLoad_length]; omega),
          groupLoad_getD _ _ _ (by omega)]
        show (t.ctrlAt (0 + i) &&& 0x80 != 0) = true
        rw [Nat.zero_add]
        exact notFull_bne hie
  · rw [if_neg hfull]
    rfl

/-- C8: for a table whose bucket count is a power of two (at least 2), the
triangular probe sequence visits pairwise-distinct positions, stops after at
most `buckets` iterations, every bucket index lies in exactly one probed
window, and whenever some control byte is `EMPTY` the `find_insert_slot` probe
loop succeeds (it never reaches its `unreachable!()`). -/
theorem probe_visits_every_group_once {K V : Type} (t : RawTable K V) (hsh : Nat)
    {m : Nat} (hmask : t.bucketMask + 1 = 2 ^ m) (hm1 : 1 ≤ t.bucketMask)
    (hrep : t.CtrlReplicaOk)
    (hempty : ∃ i < t.buckets, t.ctrlAt i = EMPTY) :
    (probeSeq t.bucketMask hsh).Nodup ∧
    (probeSeq t.bucketMask hsh).length ≤ t.buckets ∧
    (∀ v < t.buckets, ∃! p, p ∈ probeSeq t.bucketMask hsh ∧
      ∃ off < groupWidth, (p + off) % t.buckets = v) ∧
    (t.findInsertSlot hsh).isSome = true := by
  have hbuck : t.buckets = t.bucketMask + 1 := rfl
  have hnf : ∃ i < t.buckets, isFull (t.ctrlAt i) = false := by
    obtain ⟨i, hi, hie⟩ := hempty
    exact ⟨i, hi, by rw [hie]; decide⟩
  refine ⟨probeSeq_nodup _ _ hmask, ?_, ?_,
    findInsertSlot_isSome t hsh hmask hm1 hrep hnf⟩
  · rw [probeSeq_length _ _ hmask, hbuck]
    exact numProbes_le_buckets t.bucketMask
  · intro v hv
    rw [hbuck] at hv
    obtain ⟨p, hp, off, hoff, hveq, _⟩ :=
      probeSeq_covers t.bucketMask hsh v hmask hm1 hv
    refine ⟨p, ⟨hp, off, hoff, by rw [hbuck]; exact hveq⟩, ?_⟩
    rintro q ⟨hq, off2, hoff2, hveq2⟩
    rw [hbuck] at hveq2
    exact probeSeq_covers_unique t.bucketMask hsh v q p hmask hq hp
      ⟨off2, hoff2, hveq2⟩ ⟨off, hoff, hveq⟩

/-- Witness for C8: the fresh 8-bucket table with hash 11. -/
theorem probe_visits_every_group_once_witness :
    (RawTable.withCapacity 4 1 : RawTable Nat Nat).bucketMask + 1 = 2 ^ 3 ∧
    1 ≤ (RawTable.withCapacity 4 1 : RawTable Nat Nat).bucketMask ∧
    (RawTable.withCapacity 4 1 : RawTable Nat Nat).CtrlReplicaOk ∧
    (∃ i < (RawTable.withCapacity 4 1 : RawTable Nat Nat).buckets,
      (RawTable.withCapacity 4 1 : RawTable Nat Nat).ctrlAt i = EMPTY) ∧
    ((RawTable.withCapacity 4 1 : RawTable Nat Nat).findInsertSlot 11).isSome = true :=
  ⟨by decide, by decide, by decide, ⟨0, by decide, by decide⟩,
   (probe_visits_every_group_once (RawTable.withCapacity 4 1 : RawTable Nat Nat) 11
     (m := 3) (by decide) (by decide) (by decide)
     ⟨0, by decide, by decide⟩).2.2.2⟩

/-- Witness for the amended C4 at the concrete state `c4state`. -/
theorem persist_lazy_clears_dirty_witness :
    c4state.mode = .lazy ∧
    c4state.table.buckets + groupWidth ≤ c4state.table.meta.length ∧
    c4state.persist = some c4state' ∧
    (c4state'.table.modCounter = 0 ∧
      ∀ i < c4state'.table.buckets, isFull (c4state'.table.ctrlAt i) = true →
        isSafe (c4state'.table.metaAt i) = true) :=
  ⟨by decide, by decide, by rfl,
    persist_lazy_clears_dirty c4state c4state' (by decide) (by decide) (by rfl)⟩

/-! ## Single-byte writes and the trailing replica -/

theorem h2_lt (hash : Nat) : h2 hash < 128 := by
  unfold h2
  rw [land_mask (m := 7) 127 _ (by norm_num)]
  exact Nat.mod_lt _ (by norm_num)

theorem and_top_bit_zero {c : Nat} (h : c < 128) : c &&& 128 = 0 := by
  apply Nat.eq_of_testBit_eq
  intro i
  rw [Nat.testBit_and, Nat.zero_testBit]
  by_cases hi : i = 7
  · subst hi
    have h7 : c < 2 ^ 7 := h
    rw [Nat.testBit_lt_two_pow h7]
    rfl
  · rw [show (128 : Nat) = 2 ^ 7 from rfl, Nat.testBit_two_pow_of_ne (fun hh => hi hh.symm)]
    exact Bool.and_false _

theorem isFull_of_lt {c : Nat} (h : c < 128) : isFull c = true := by
  unfold isFull
  rw [and_top_bit_zero h]
  rfl

theorem isFull_h2 (hash : Nat) : isFull (h2 hash) = true := isFull_of_lt (h2_lt hash)

theorem h2_ne_EMPTY (hash : Nat) : h2 hash ≠ EMPTY := by
  have := h2_lt hash
  unfold EMPTY
  omega

/-- Where the mirrored write of `set_ctrl` / `set_meta` lands: past the bucket
array (at `i + buckets`, or `i + groupWidth` on a small table) when
`i < groupWidth`, and on `i` itself otherwise. -/
theorem mirrorIdx_spec {m : Nat} (mask i : Nat) (hmask : mask + 1 = 2 ^ m)
    (hm64 : m ≤ 64) (hi : i < mask + 1) :
    RawTable.mirrorIdx mask i =
      if i < groupWidth then i + max (mask + 1) groupWidth else i := by
  have hi2 : i < 2 ^ m := hmask ▸ hi
  unfold RawTable.mirrorIdx wrapSub U64 groupWidth
  rw [land_mask _ _ hmask, hmask]
  have hdvd : (2 : Nat) ^ m ∣ 2 ^ 64 := pow_dvd_pow 2 hm64
  rw [Nat.mod_mod_of_dvd _ hdvd]
  by_cases hm4 : 4 ≤ m
  · have h16 : (16 : Nat) ≤ 2 ^ m := by
      calc (16 : Nat) = 2 ^ 4 := rfl
        _ ≤ 2 ^ m := Nat.pow_le_pow_right (by omega) hm4
    obtain ⟨d, hd⟩ := hdvd
    obtain ⟨e, he⟩ : ∃ e, d = e + 1 := by
      refine ⟨d - 1, ?_⟩
      rcases Nat.eq_zero_or_pos d with h0 | h1
      · subst h0
        rw [mul_zero] at hd
        exact absurd hd (by norm_num)
      · omega
    subst he
    have hd' : 2 ^ 64 = 2 ^ m * e + 2 ^ m := by rw [hd]; ring
    have hsplit : i + (2 ^ 64 - 16) = (i + 2 ^ m - 16) + 2 ^ m * e := by omega
    rw [hsplit, Nat.add_mul_mod_self_left]
    by_cases hi16 : i < 16
    · rw [if_pos hi16, Nat.mod_eq_of_lt (by omega), max_eq_left h16]
      omega
    · rw [if_neg hi16]
      rw [show i + 2 ^ m - 16 = (i - 16) + 2 ^ m from by omega, Nat.add_mod_right,
        Nat.mod_eq_of_lt (by omega)]
      omega
  · have hc : (2 : Nat) ^ m ∣ 16 := by
      rw [show (16 : Nat) = 2 ^ 4 from rfl]
      exact pow_dvd_pow 2 (by omega)
    have hdvd2 : (2 : Nat) ^ m ∣ (2 ^ 64 - 16) := Nat.dvd_sub' hdvd hc
    have h16 : 2 ^ m ≤ 16 := Nat.le_of_dvd (by omega) hc
    obtain ⟨f, hf⟩ := hdvd2
    rw [hf, Nat.add_mul_mod_self_left, Nat.mod_eq_of_lt hi2]
    rw [if_pos (by omega), max_eq_right (by omega)]

theorem mirrorIdx_self_or_ge {m : Nat} (mask i : Nat) (hmask : mask + 1 = 2 ^ m)
    (hm64 : m ≤ 64) (hi : i < mask + 1) :
    RawTable.mirrorIdx mask i = i ∨ mask + 1 ≤ RawTable.mirrorIdx mask i := by
  rw [mirrorIdx_spec mask i hmask hm64 hi]
  by_cases h16 : i < groupWidth
  · rw [if_pos h16]
    right
    have := le_max_left (mask + 1) groupWidth
    omega
  · rw [if_neg h16]
    left
    rfl

theorem setCtrl_ctrlAt_self {K V : Type} (t : RawTable K V) (i c : Nat)
    (h : i < t.ctrl.length) : (t.setCtrl i c).ctrlAt i = c :=
  getD_set_pair t.ctrl i _ c 0 h

theorem setCtrl_ctrlAt_mirror {K V : Type} (t : RawTable K V) (i c : Nat)
    (h : RawTable.mirrorIdx t.bucketMask i < t.ctrl.length) :
    (t.setCtrl i c).ctrlAt (RawTable.mirrorIdx t.bucketMask i) = c :=
  getD_set_self _ _ _ (by simpa using h)

theorem setCtrl_ctrlAt_ne {K V : Type} (t : RawTable K V) (i c j : Nat)
    (h1 : j ≠ i) (h2 : j ≠ RawTable.mirrorIdx t.bucketMask i) :
    (t.setCtrl i c).ctrlAt j = t.ctrlAt j :=
  getD_set_pair_other t.ctrl i _ j c 0 (Ne.symm h1) (Ne.symm h2)

theorem replicaOk_congr {K V : Type} {t₁ t₂ : RawTable K V}
    (hc : t₂.ctrl = t₁.ctrl) (hb : t₂.bucketMask = t₁.bucketMask)
    (h : t₁.CtrlReplicaOk) : t₂.CtrlReplicaOk := by
  unfold RawTable.CtrlReplicaOk RawTable.ctrlAt RawTable.buckets at h ⊢
  rw [hc, hb]
  exact h

theorem setCtrl_replicaOk {K V : Type} (t : RawTable K V) {m : Nat} (i c : Nat)
    (hmask : t.bucketMask + 1 = 2 ^ m) (hm64 : m ≤ 64)
    (hlen : t.ctrl.length = t.buckets + groupWidth)
    (hi : i < t.buckets) (hrep : t.CtrlReplicaOk) :
    (t.setCtrl i c).CtrlReplicaOk := by
  have hW : groupWidth = 16 := rfl
  have hb : t.buckets = t.bucketMask + 1 := rfl
  have hmir := mirrorIdx_spec t.bucketMask i hmask hm64 (hb ▸ hi)
  have hilen : i < t.ctrl.length := by rw [hlen]; omega
  constructor
  · intro hge j hj
    have hge' : groupWidth ≤ t.buckets := hge
    show (t.setCtrl i c).ctrlAt (t.buckets + j) = (t.setCtrl i c).ctrlAt j
    have hmax : max (t.bucketMask + 1) groupWidth = t.buckets :=
      max_eq_left (hb ▸ hge')
    by_cases hi16 : i < groupWidth
    · rw [if_pos hi16, hmax] at hmir
      by_cases hji : j = i
      · rw [hji]
        rw [show t.buckets + i = RawTable.mirrorIdx t.bucketMask i from by omega]
        rw [setCtrl_ctrlAt_mirror t i c (by rw [hlen]; omega),
          setCtrl_ctrlAt_self t i c hilen]
      · have hne1 : t.buckets + j ≠ i := by omega
        have hne2 : t.buckets + j ≠ RawTable.mirrorIdx t.bucketMask i := by omega
        have hne4 : j ≠ RawTable.mirrorIdx t.bucketMask i := by omega
        rw [setCtrl_ctrlAt_ne t i c _ hne1 hne2, setCtrl_ctrlAt_ne t i c j hji hne4]
        exact hrep.1 hge' j hj
    · rw [if_neg hi16] at hmir
      have hne1 : t.buckets + j ≠ i := by omega
      have hne2 : t.buckets + j ≠ RawTable.mirrorIdx t.bucketMask i := by omega
      by_cases hji : j = i
      · omega
      · have hne4 : j ≠ RawTable.mirrorIdx t.bucketMask i := by omega
        rw [setCtrl_ctrlAt_ne t i c _ hne1 hne2, setCtrl_ctrlAt_ne t i c j hji hne4]
        exact hrep.1 hge' j hj
  · intro hlt
    have hlt' : t.buckets < groupWidth := hlt
    have hi16 : i < groupWidth := by omega
    have hmax : max (t.bucketMask + 1) groupWidth = groupWidth :=
      max_eq_right (by omega)
    rw [if_pos hi16, hmax] at hmir
    constructor
    · intro j hbj hjW
      have hbj' : t.buckets ≤ j := hbj
      show (t.setCtrl i c).ctrlAt j = EMPTY
      have hne1 : j ≠ i := by omega
      have hne2 : j ≠ RawTable.mirrorIdx t.bucketMask i := by omega
      rw [setCtrl_ctrlAt_ne t i c j hne1 hne2]
      exact (hrep.2 hlt').1 j hbj' hjW
    · intro j hj
      have hj' : j < t.buckets := hj
      show (t.setCtrl i c).ctrlAt (groupWidth + j) = (t.setCtrl i c).ctrlAt j
      by_cases hji : j = i
      · rw [hji]
        rw [show groupWidth + i = RawTable.mirrorIdx t.bucketMask i from by omega]
        rw [setCtrl_ctrlAt_mirror t i c (by rw [hlen]; omega),
          setCtrl_ctrlAt_self t i c hilen]
      · have hne1 : groupWidth + j ≠ i := by omega
        have hne2 : groupWidth + j ≠ RawTable.mirrorIdx t.bucketMask i := by omega
        have hne4 : j ≠ RawTable.mirrorIdx t.bucketMask i := by omega
        rw [setCtrl_ctrlAt_ne t i c _ hne1 hne2, setCtrl_ctrlAt_ne t i c j hji hne4]
        exact (hrep.2 hlt').2 j hj

/-! ## The probe-walk lookup: soundness and completeness -/

theorem findIndexAt_some {K V : Type} [DecidableEq K] {t : RawTable K V} {k : K}
    {idx i : Nat} (h : t.findIndexAt k idx = some i) :
    i = idx ∧ ∃ kv : K × V, t.dataAt idx = some kv ∧ kv.1 = k := by
  unfold RawTable.findIndexAt at h
  split at h
  · rename_i kv heq
    split at h
    · rename_i hk
      exact ⟨(Option.some.inj h).symm, kv, heq, hk⟩
    · exact Option.noConfusion h
  · exact Option.noConfusion h

theorem findIndexAt_of {K V : Type} [DecidableEq K] {t : RawTable K V} {k : K}
    {idx : Nat} {kv : K × V} (hd : t.dataAt idx = some kv) (hk : kv.1 = k) :
    t.findIndexAt k idx = some idx := by
  unfold RawTable.findIndexAt
  rw [hd]
  simp [hk]

theorem findIndex_sound {K V : Type} [DecidableEq K] (t : RawTable K V) {m : Nat}
    (hash : Nat) (k : K) {i : Nat}
    (hmask : t.bucketMask + 1 = 2 ^ m) (hrep : t.CtrlReplicaOk)
    (h : t.findIndex hash k = some i) :
    ∃ kv : K × V, i < t.buckets ∧ t.ctrlAt i = h2 hash ∧
      t.dataAt i = some kv ∧ kv.1 = k := by
  have hW : groupWidth = 16 := rfl
  have hb : t.buckets = t.bucketMask + 1 := rfl
  unfold RawTable.findIndex at h
  obtain ⟨pos, hpos, hinner⟩ := List.exists_of_findSome?_eq_some h
  have hinner' : ((List.range groupWidth).filter
      (fun off => (groupLoad t.ctrl pos).getD off 0 == h2 hash)).findSome? (fun off =>
        t.findIndexAt k ((pos + off) &&& t.bucketMask)) = some i := hinner
  obtain ⟨off, hoffmem, hf⟩ := List.exists_of_findSome?_eq_some hinner'
  obtain ⟨hoffrange, hbyte⟩ := List.mem_filter.mp hoffmem
  have hoffW : off < groupWidth := List.mem_range.mp hoffrange
  have hbyte' : t.ctrlAt (pos + off) = h2 hash := by
    have hb2 : (groupLoad t.ctrl pos).getD off 0 = h2 hash := by
      have := hbyte
      simpa using this
    rwa [groupLoad_getD _ _ _ hoffW] at hb2
  have hplt : pos < t.bucketMask + 1 := probeSeq_mem_lt _ hash pos hmask hpos
  have hf' : t.findIndexAt k ((pos + off) &&& t.bucketMask) = some i := hf
  obtain ⟨hieq, kv, hdd, hk⟩ := findIndexAt_some hf'
  have hmod : (pos + off) &&& t.bucketMask = (pos + off) % (t.bucketMask + 1) :=
    land_mask _ _ hmask
  have hilt : i < t.buckets := by
    rw [hb, hieq, hmod]
    exact Nat.mod_lt _ (by omega)
  refine ⟨kv, hilt, ?_, by rw [hieq]; exact hdd, hk⟩
  rcases ctrl_window_byte t hmask hrep (pos + off) (by rw [hb]; omega) with hc | hc
  · rw [hieq, hmod]
    rw [hc] at hbyte'
    exact hbyte'
  · exact absurd (hbyte'.symm.trans hc.2.2) (h2_ne_EMPTY hash)

theorem findIndex_isSome {K V : Type} [DecidableEq K] (t : RawTable K V) {m : Nat}
    (hash : Nat) (k : K) {i : Nat} {kv : K × V}
    (hmask : t.bucketMask + 1 = 2 ^ m) (hm1 : 1 ≤ t.bucketMask)
    (hrep : t.CtrlReplicaOk)
    (hi : i < t.buckets) (hc : t.ctrlAt i = h2 hash)
    (hd : t.dataAt i = some kv) (hk : kv.1 = k) :
    (t.findIndex hash k).isSome = true := by
  have hW : groupWidth = 16 := rfl
  have hb : t.buckets = t.bucketMask + 1 := rfl
  obtain ⟨p, hpmem, off, hoff, hv, hgood⟩ :=
    probeSeq_covers t.bucketMask hash i hmask hm1 (hb ▸ hi)
  have hplt : p < t.bucketMask + 1 := probeSeq_mem_lt _ hash p hmask hpmem
  have him : (p + off) &&& t.bucketMask = i := by
    rw [land_mask _ _ hmask]
    exact hv
  unfold RawTable.findIndex
  apply findSome?_isSome_of_mem
    (f := fun pos => ((List.range groupWidth).filter
      (fun off => (groupLoad t.ctrl pos).getD off 0 == h2 hash)).findSome? (fun off =>
        t.findIndexAt k ((pos + off) &&& t.bucketMask))) hpmem
  apply findSome?_isSome_of_mem
    (f := fun off => t.findIndexAt k ((p + off) &&& t.bucketMask)) (x := off)
  · refine List.mem_filter.mpr ⟨List.mem_range.mpr hoff, ?_⟩
    have hwin : t.ctrlAt (p + off) = h2 hash := by
      rcases ctrl_window_byte t hmask hrep (p + off) (by rw [hb]; omega) with hcc | hcc
      · rw [hcc]
        have : (p + off) % t.buckets = i := hv
        rw [this]
        exact hc
      · exact absurd ⟨hb ▸ hcc.1, hcc.2.1⟩ hgood
    rw [groupLoad_getD _ _ _ hoff]
    show (t.ctrlAt (p + off) == h2 hash) = true
    rw [hwin]
    simp
  · show (t.findIndexAt k ((p + off) &&& t.bucketMask)).isSome = true
    rw [him, findIndexAt_of hd hk]
    rfl

theorem findIndex_eq {K V : Type} [DecidableEq K] (t : RawTable K V) {m : Nat}
    (hash : Nat) (k : K) {i : Nat} {kv : K × V}
    (hmask : t.bucketMask + 1 = 2 ^ m) (hm1 : 1 ≤ t.bucketMask)
    (hrep : t.CtrlReplicaOk)
    (hi : i < t.buckets) (hc : t.ctrlAt i = h2 hash)
    (hd : t.dataAt i = some kv) (hk : kv.1 = k)
    (huniq : ∀ j < t.buckets, t.ctrlAt j = h2 hash →
      ∀ kvj : K × V, t.dataAt j = some kvj → kvj.1 = k → j = i) :
    t.findIndex hash k = some i := by
  have hs := findIndex_isSome t hash k hmask hm1 hrep hi hc hd hk
  obtain ⟨j, hj⟩ := Option.isSome_iff_exists.mp hs
  obtain ⟨kvj, hjb, hjc, hjd, hjk⟩ := findIndex_sound t hash k hmask hrep hj
  rw [hj, huniq j hjb hjc kvj hjd hjk]

theorem findIndex_none {K V : Type} [DecidableEq K] (t : RawTable K V) {m : Nat}
    (hash : Nat) (k : K)
    (hmask : t.bucketMask + 1 = 2 ^ m) (hm1 : 1 ≤ t.bucketMask)
    (hrep : t.CtrlReplicaOk)
    (h : t.findIndex hash k = none) :
    ∀ i < t.buckets, t.ctrlAt i = h2 hash →
      ∀ kv : K × V, t.dataAt i = some kv → kv.1 ≠ k := by
  intro i hi hc kv hd hk
  have := findIndex_isSome t hash k hmask hm1 hrep hi hc hd hk
  rw [h] at this
  cases this

/-! ## Field-level consequences of erase, reclaim and eviction -/

theorem erase_bucketMask {K V : Type} (t : RawTable K V) (i : Nat) :
    (t.eraseByIndex i).bucketMask = t.bucketMask := by
  unfold RawTable.eraseByIndex
  split <;> rfl

theorem erase_data {K V : Type} (t : RawTable K V) (i : Nat) :
    (t.eraseByIndex i).data = t.data := by
  unfold RawTable.eraseByIndex
  split <;> rfl

theorem erase_ctrl_length {K V : Type} (t : RawTable K V) (i : Nat) :
    (t.eraseByIndex i).ctrl.length = t.ctrl.length := by
  unfold RawTable.eraseByIndex
  split <;> simp [RawTable.setCtrl]

/-- The control stream an erase writes: that of `set_ctrl` at `DELETED` or at
`EMPTY`, depending on the run-length rule. -/
theorem erase_ctrl_cases {K V : Type} (t : RawTable K V) (i : Nat) :
    (t.eraseByIndex i).ctrl = (t.setCtrl i DELETED).ctrl ∨
    (t.eraseByIndex i).ctrl = (t.setCtrl i EMPTY).ctrl := by
  unfold RawTable.eraseByIndex
  split
  · left
    rfl
  · right
    rfl

theorem ctrlAt_congr {K V : Type} {t₁ t₂ : RawTable K V} (h : t₁.ctrl = t₂.ctrl)
    (j : Nat) : t₁.ctrlAt j = t₂.ctrlAt j := by
  unfold RawTable.ctrlAt
  rw [h]

theorem erase_ctrlAt_ne {K V : Type} (t : RawTable K V) {m : Nat} (i j : Nat)
    (hmask : t.bucketMask + 1 = 2 ^ m) (hm64 : m ≤ 64)
    (hi : i < t.buckets) (hj : j < t.buckets) (hne : j ≠ i) :
    (t.eraseByIndex i).ctrlAt j = t.ctrlAt j := by
  have hb : t.buckets = t.bucketMask + 1 := rfl
  have hmir := mirrorIdx_self_or_ge t.bucketMask i hmask hm64 (hb ▸ hi)
  have hnem : j ≠ RawTable.mirrorIdx t.bucketMask i := by
    rcases hmir with h | h
    · omega
    · omega
  rcases erase_ctrl_cases t i with hc | hc
  · exact (ctrlAt_congr hc j).trans (setCtrl_ctrlAt_ne t i DELETED j hne hnem)
  · exact (ctrlAt_congr hc j).trans (setCtrl_ctrlAt_ne t i EMPTY j hne hnem)

theorem erase_ctrlAt_self_notFull {K V : Type} (t : RawTable K V) (i : Nat)
    (hlen : i < t.ctrl.length) :
    isFull ((t.eraseByIndex i).ctrlAt i) = false := by
  rcases erase_ctrl_cases t i with hc | hc
  · rw [ctrlAt_congr hc i, setCtrl_ctrlAt_self t i DELETED hlen]
    decide
  · rw [ctrlAt_congr hc i, setCtrl_ctrlAt_self t i EMPTY hlen]
    decide

theorem erase_replicaOk {K V : Type} (t : RawTable K V) {m : Nat} (i : Nat)
    (hmask : t.bucketMask + 1 = 2 ^ m) (hm64 : m ≤ 64)
    (hlen : t.ctrl.length = t.buckets + groupWidth)
    (hi : i < t.buckets) (hrep : t.CtrlReplicaOk) :
    (t.eraseByIndex i).CtrlReplicaOk := by
  have hbm1 : (t.eraseByIndex i).bucketMask = (t.setCtrl i DELETED).bucketMask :=
    erase_bucketMask t i
  have hbm2 : (t.eraseByIndex i).bucketMask = (t.setCtrl i EMPTY).bucketMask :=
    erase_bucketMask t i
  rcases erase_ctrl_cases t i with hc | hc
  · exact @replicaOk_congr K V (t.setCtrl i DELETED) _ hc hbm1
      (setCtrl_replicaOk t i DELETED hmask hm64 hlen hi hrep)
  · exact @replicaOk_congr K V (t.setCtrl i EMPTY) _ hc hbm2
      (setCtrl_replicaOk t i EMPTY hmask hm64 hlen hi hrep)

theorem erase_meta {K V : Type} (t : RawTable K V) (i : Nat) :
    (t.eraseByIndex i).meta = t.meta := by
  unfold RawTable.eraseByIndex
  split <;> rfl

theorem dataAt_congr {K V : Type} {t₁ t₂ : RawTable K V} (h : t₁.data = t₂.data)
    (j : Nat) : t₁.dataAt j = t₂.dataAt j := by
  unfold RawTable.dataAt
  rw [h]

theorem metaAt_congr {K V : Type} {t₁ t₂ : RawTable K V} (h : t₁.meta = t₂.meta)
    (j : Nat) : t₁.metaAt j = t₂.metaAt j := by
  unfold RawTable.metaAt
  rw [h]

theorem setMeta_metaAt_self {K V : Type} (t : RawTable K V) (i x : Nat)
    (h : i < t.meta.length) : (t.setMeta i x).metaAt i = x :=
  getD_set_pair t.meta i _ x 0 h

theorem setMeta_metaAt_mirror {K V : Type} (t : RawTable K V) (i x : Nat)
    (h : RawTable.mirrorIdx t.bucketMask i < t.meta.length) :
    (t.setMeta i x).metaAt (RawTable.mirrorIdx t.bucketMask i) = x :=
  getD_set_self _ _ _ (by simpa using h)

theorem setMeta_metaAt_ne {K V : Type} (t : RawTable K V) (i x j : Nat)
    (h1 : j ≠ i) (h2 : j ≠ RawTable.mirrorIdx t.bucketMask i) :
    (t.setMeta i x).metaAt j = t.metaAt j :=
  getD_set_pair_other t.meta i _ j x 0 (Ne.symm h1) (Ne.symm h2)

theorem metaReplicaOk_congr {K V : Type} {t₁ t₂ : RawTable K V}
    (hc : t₂.meta = t₁.meta) (hb : t₂.bucketMask = t₁.bucketMask)
    (h : t₁.MetaReplicaOk) : t₂.MetaReplicaOk := by
  unfold RawTable.MetaReplicaOk RawTable.metaAt RawTable.buckets at h ⊢
  rw [hc, hb]
  exact h

theorem setMeta_metaReplicaOk {K V : Type} (t : RawTable K V) {m : Nat} (i x : Nat)
    (hmask : t.bucketMask + 1 = 2 ^ m) (hm64 : m ≤ 64)
    (hlen : t.meta.length = t.buckets + groupWidth)
    (hi : i < t.buckets) (hrep : t.MetaReplicaOk) :
    (t.setMeta i x).MetaReplicaOk := by
  have hW : groupWidth = 16 := rfl
  have hb : t.buckets = t.bucketMask + 1 := rfl
  have hmir := mirrorIdx_spec t.bucketMask i hmask hm64 (hb ▸ hi)
  have hilen : i < t.meta.length := by rw [hlen]; omega
  constructor
  · intro hge j hj
    have hge' : groupWidth ≤ t.buckets := hge
    show (t.setMeta i x).metaAt (t.buckets + j) = (t.setMeta i x).metaAt j
    have hmax : max (t.bucketMask + 1) groupWidth = t.buckets :=
      max_eq_left (hb ▸ hge')
    by_cases hi16 : i < groupWidth
    · rw [if_pos hi16, hmax] at hmir
      by_cases hji : j = i
      · rw [hji]
        rw [show t.buckets + i = RawTable.mirrorIdx t.bucketMask i from by omega]
        rw [setMeta_metaAt_mirror t i x (by rw [hlen]; omega),
          setMeta_metaAt_self t i x hilen]
      · have hne1 : t.buckets + j ≠ i := by omega
        have hne2 : t.buckets + j ≠ RawTable.mirrorIdx t.bucketMask i := by omega
        have hne4 : j ≠ RawTable.mirrorIdx t.bucketMask i := by omega
        rw [setMeta_metaAt_ne t i x _ hne1 hne2, setMeta_metaAt_ne t i x j hji hne4]
        exact hrep.1 hge' j hj
    · rw [if_neg hi16] at hmir
      have hne1 : t.buckets + j ≠ i := by omega
      have hne2 : t.buckets + j ≠ RawTable.mirrorIdx t.bucketMask i := by omega
      by_cases hji : j = i
      · omega
      · have hne4 : j ≠ RawTable.mirrorIdx t.bucketMask i := by omega
        rw [setMeta_metaAt_ne t i x _ hne1 hne2, setMeta_metaAt_ne t i x j hji hne4]
        exact hrep.1 hge' j hj
  · intro hlt
    have hlt' : t.buckets < groupWidth := hlt
    have hi16 : i < groupWidth := by omega
    have hmax : max (t.bucketMask + 1) groupWidth = groupWidth :=
      max_eq_right (by omega)
    rw [if_pos hi16, hmax] at hmir
    constructor
    · intro j hbj hjW
      have hbj' : t.buckets ≤ j := hbj
      show (t.setMeta i x).metaAt j = SAFE
      have hne1 : j ≠ i := by omega
      have hne2 : j ≠ RawTable.mirrorIdx t.bucketMask i := by omega
      rw [setMeta_metaAt_ne t i x j hne1 hne2]
      exact (hrep.2 hlt').1 j hbj' hjW
    · intro j hj
      have hj' : j < t.buckets := hj
      show (t.setMeta i x).metaAt (groupWidth + j) = (t.setMeta i x).metaAt j
      by_cases hji : j = i
      · rw [hji]
        rw [show groupWidth + i = RawTable.mirrorIdx t.bucketMask i from by omega]
        rw [setMeta_metaAt_mirror t i x (by rw [hlen]; omega),
          setMeta_metaAt_self t i x hilen]
      · have hne1 : groupWidth + j ≠ i := by omega
        have hne2 : groupWidth + j ≠ RawTable.mirrorIdx t.bucketMask i := by omega
        have hne4 : j ≠ RawTable.mirrorIdx t.bucketMask i := by omega
        rw [setMeta_metaAt_ne t i x _ hne1 hne2, setMeta_metaAt_ne t i x j hji hne4]
        exact (hrep.2 hlt').2 j hj'

theorem lowestSetBit_le {l : List Bool} {r j : Nat} (h : lowestSetBit l = some r)
    (hj : l.getD j false = true) : r ≤ j := by
  induction l generalizing r j with
  | nil => cases h
  | cons b tl ih =>
    unfold lowestSetBit at h
    cases hb : b with
    | true =>
      rw [hb] at h
      simp at h
      omega
    | false =>
      rw [hb] at h
      simp only [Bool.false_eq_true, if_false] at h
      cases hL : lowestSetBit tl with
      | none => rw [hL] at h; cases h
      | some r' =>
        rw [hL] at h
        simp only [Option.map_some', Option.some.injEq] at h
        cases j with
        | zero =>
          rw [List.getD_cons_zero] at hj
          rw [hj] at hb
          cases hb
        | succ j' =>
          rw [List.getD_cons_succ] at hj
          have := ih hL hj
          omega

/-- A successful `find_insert_slot` lands inside the bucket array, on a
non-full slot. -/
theorem findInsertSlot_post {K V : Type} (t : RawTable K V) {m : Nat} (hash : Nat)
    {idx : Nat}
    (hmask : t.bucketMask + 1 = 2 ^ m) (hrep : t.CtrlReplicaOk)
    (hnf : ∃ i < t.buckets, isFull (t.ctrlAt i) = false)
    (h : t.findInsertSlot hash = some idx) :
    idx < t.buckets ∧ isFull (t.ctrlAt idx) = false := by
  have hW : groupWidth = 16 := rfl
  have hb : t.buckets = t.bucketMask + 1 := rfl
  unfold RawTable.findInsertSlot at h
  cases hfs : (probeSeq t.bucketMask hash).findSome? (fun pos =>
      (lowestSetBit (matchEmptyOrDeleted (groupLoad t.ctrl pos))).map
        (fun bit => (pos, bit))) with
  | none => rw [hfs] at h; cases h
  | some pb =>
    obtain ⟨pos, bit⟩ := pb
    rw [hfs] at h
    have h' : (if isFull (t.ctrlAt ((pos + bit) &&& t.bucketMask)) = true then
        lowestSetBit (matchEmptyOrDeleted (groupLoad t.ctrl 0))
      else some ((pos + bit) &&& t.bucketMask)) = some idx := h
    by_cases hfull : isFull (t.ctrlAt ((pos + bit) &&& t.bucketMask)) = true
    · rw [if_pos hfull] at h'
      have hspec := lowestSetBit_spec h'
      have hiW : idx < groupWidth := by
        have h1 := hspec.1
        rwa [matchEOD_length, groupLoad_length] at h1
      have hbit : (t.ctrlAt (0 + idx) &&& 0x80 != 0) = true := by
        have h2 := hspec.2
        rwa [matchEOD_getD _ _ (by rw [groupLoad_length]; exact hiW),
          groupLoad_getD _ _ _ hiW] at h2
      rw [Nat.zero_add] at hbit
      refine ⟨?_, bne_notFull hbit⟩
      by_cases hbig : groupWidth ≤ t.buckets
      · omega
      · obtain ⟨i0, hi0, hi0nf⟩ := hnf
        have hmatch : (matchEmptyOrDeleted (groupLoad t.ctrl 0)).getD i0 false = true := by
          rw [matchEOD_getD _ _ (by rw [groupLoad_length]; omega),
            groupLoad_getD _ _ _ (by omega)]
          show (t.ctrlAt (0 + i0) &&& 0x80 != 0) = true
          rw [Nat.zero_add]
          exact notFull_bne hi0nf
        have := lowestSetBit_le h' hmatch
        omega
    · rw [if_neg hfull] at h'
      have hieq : (pos + bit) &&& t.bucketMask = idx := Option.some.inj h'
      constructor
      · rw [hb, ← hieq, land_mask _ _ hmask]
        exact Nat.mod_lt _ (by omega)
      · rw [← hieq]
        cases hvb : isFull (t.ctrlAt ((pos + bit) &&& t.bucketMask)) with
        | false => rfl
        | true => exact absurd hvb hfull

/-- What `evictAt` does to the control stream and the buckets: the victim may
lose its control byte (becoming non-full), everything else is untouched. -/
theorem evictAt_post {K V : Type} (t : RawTable K V) {m : Nat} (index : Nat)
    {t' : RawTable K V} {kv : K × V}
    (hmask : t.bucketMask + 1 = 2 ^ m) (hm64 : m ≤ 64)
    (hlen : t.ctrl.length = t.buckets + groupWidth)
    (hmlen : t.meta.length = t.buckets + groupWidth)
    (hrep : t.CtrlReplicaOk) (hmrep : t.MetaReplicaOk) (hidx : index < t.buckets)
    (h : t.evictAt index = some (t', kv)) :
    t'.bucketMask = t.bucketMask ∧ t'.data = t.data ∧
    t'.ctrl.length = t.ctrl.length ∧ t'.CtrlReplicaOk ∧
    (∀ j < t.buckets, isFull (t'.ctrlAt j) = true → t'.ctrlAt j = t.ctrlAt j) ∧
    t'.meta.length = t.meta.length ∧ t'.MetaReplicaOk := by
  have hT₁ : (if t.growthLeft == 0 then t.eraseByIndex index else t).bucketMask
        = t.bucketMask ∧
      (if t.growthLeft == 0 then t.eraseByIndex index else t).data = t.data ∧
      (if t.growthLeft == 0 then t.eraseByIndex index else t).ctrl.length
        = t.ctrl.length ∧
      (if t.growthLeft == 0 then t.eraseByIndex index else t).CtrlReplicaOk ∧
      (∀ j < t.buckets,
        isFull ((if t.growthLeft == 0 then t.eraseByIndex index else t).ctrlAt j) = true →
        (if t.growthLeft == 0 then t.eraseByIndex index else t).ctrlAt j = t.ctrlAt j) ∧
      (if t.growthLeft == 0 then t.eraseByIndex index else t).meta = t.meta := by
    by_cases hgl : (t.growthLeft == 0) = true
    · rw [if_pos hgl]
      refine ⟨erase_bucketMask t index, erase_data t index, erase_ctrl_length t index,
        erase_replicaOk t index hmask hm64 hlen hidx hrep, ?_, erase_meta t index⟩
      intro j hj hfull
      by_cases hji : j = index
      · rw [hji] at hfull
        rw [erase_ctrlAt_self_notFull t index (by rw [hlen]; omega)] at hfull
        cases hfull
      · exact erase_ctrlAt_ne t index j hmask hm64 hidx hj hji
    · rw [if_neg hgl]
      exact ⟨rfl, rfl, rfl, hrep, fun j _ _ => rfl, rfl⟩
  unfold RawTable.evictAt at h
  cases hdd : t.dataAt index with
  | none =>
    rw [hdd] at h
    exact Option.noConfusion h
  | some kv0 =>
    rw [hdd] at h
    have hpair : (({ (if t.growthLeft == 0 then t.eraseByIndex index else t).setMeta index SAFE with
          modCounter := wrapSub ((if t.growthLeft == 0 then t.eraseByIndex index else
            t).setMeta index SAFE).modCounter 1 } : RawTable K V), kv0) = (t', kv) :=
      Option.some.inj h
    injection hpair with ht' hkv
    have hbm : t'.bucketMask
        = (if t.growthLeft == 0 then t.eraseByIndex index else t).bucketMask :=
      (congrArg RawTable.bucketMask ht').symm
    have hdata : t'.data
        = (if t.growthLeft == 0 then t.eraseByIndex index else t).data :=
      (congrArg RawTable.data ht').symm
    have hctrl : t'.ctrl
        = (if t.growthLeft == 0 then t.eraseByIndex index else t).ctrl :=
      (congrArg RawTable.ctrl ht').symm
    have hmeta : t'.meta
        = ((if t.growthLeft == 0 then t.eraseByIndex index else t).setMeta index SAFE).meta :=
      (congrArg RawTable.meta ht').symm
    have hmaskT : (if t.growthLeft == 0 then t.eraseByIndex index else t).bucketMask + 1
        = 2 ^ m := by
      rw [hT₁.1]
      exact hmask
    have hbuckT : (if t.growthLeft == 0 then t.eraseByIndex index else t).buckets
        = t.buckets := by
      unfold RawTable.buckets
      rw [hT₁.1]
    have hmlenT : (if t.growthLeft == 0 then t.eraseByIndex index else t).meta.length
        = (if t.growthLeft == 0 then t.eraseByIndex index else t).buckets + groupWidth := by
      rw [hT₁.2.2.2.2.2, hbuckT]
      exact hmlen
    have hmrepT : (if t.growthLeft == 0 then t.eraseByIndex index else t).MetaReplicaOk :=
      metaReplicaOk_congr hT₁.2.2.2.2.2 hT₁.1 hmrep
    refine ⟨hbm.trans hT₁.1, hdata.trans hT₁.2.1,
      (congrArg List.length hctrl).trans hT₁.2.2.1,
      @replicaOk_congr K V (if t.growthLeft == 0 then t.eraseByIndex index else t) _
        hctrl hbm hT₁.2.2.2.1, ?_, ?_, ?_⟩
    · intro j hj hfull
      rw [ctrlAt_congr hctrl j] at hfull ⊢
      exact hT₁.2.2.2.2.1 j hj hfull
    · rw [hmeta]
      show (((if t.growthLeft == 0 then t.eraseByIndex index else t).meta.set index SAFE).set
        (RawTable.mirrorIdx (if t.growthLeft == 0 then t.eraseByIndex index else
          t).bucketMask index) SAFE).length = t.meta.length
      simp only [List.length_set]
      rw [hT₁.2.2.2.2.2]
    · exact @metaReplicaOk_congr K V ((if t.growthLeft == 0 then t.eraseByIndex index else
          t).setMeta index SAFE) _ hmeta hbm
        (setMeta_metaReplicaOk _ index SAFE hmaskT hm64 hmlenT (by rw [hbuckT]; exact hidx)
          hmrepT)

/-- What a successful `clear_safe_bucket` does to the control stream: at most
one victim loses its control byte, everything else is untouched. -/
theorem clearSafeBucket_post {K V : Type} (t : RawTable K V) {m : Nat} (hash : Nat)
    {t' : RawTable K V}
    (hmask : t.bucketMask + 1 = 2 ^ m) (hm64 : m ≤ 64)
    (hlen : t.ctrl.length = t.buckets + groupWidth)
    (hrep : t.CtrlReplicaOk) (hmrep : t.MetaReplicaOk)
    (h : t.clearSafeBucket hash = some t') :
    t'.bucketMask = t.bucketMask ∧ t'.data = t.data ∧
    t'.ctrl.length = t.ctrl.length ∧ t'.CtrlReplicaOk ∧
    (∀ j < t.buckets, isFull (t'.ctrlAt j) = true → t'.ctrlAt j = t.ctrlAt j) := by
  have hW : groupWidth = 16 := rfl
  have hb : t.buckets = t.bucketMask + 1 := rfl
  unfold RawTable.clearSafeBucket at h
  cases hfs : (probeSeq t.bucketMask hash).findSome? (fun pos =>
      (RawTable.matchFirst (groupLoad t.meta pos) SAFE SAFE_TOUCHED).map
        (fun bit => (pos, bit))) with
  | none =>
    rw [hfs] at h
    have ht : t = t' := Option.some.inj h
    rw [← ht]
    exact ⟨rfl, rfl, rfl, hrep, fun j _ _ => rfl⟩
  | some pb =>
    obtain ⟨pos, bit⟩ := pb
    rw [hfs] at h
    obtain ⟨index, hsel, heq⟩ := Option.map_eq_some'.mp h
    have hidx : index < t.buckets := by
      by_cases hmod : isModified (t.metaAt ((pos + bit) &&& t.bucketMask)) = true
      · rw [if_pos hmod] at hsel
        have hspec := lowestSetBit_spec hsel
        have hiW : index < groupWidth := by
          have h1 := hspec.1
          rwa [matchEOD_length, groupLoad_length] at h1
        by_cases hbig : groupWidth ≤ t.buckets
        · omega
        · have hbitv : (t.metaAt (0 + index) &&& 0x80 != 0) = true := by
            have h2 := hspec.2
            rwa [matchEOD_getD _ _ (by rw [groupLoad_length]; exact hiW),
              groupLoad_getD _ _ _ hiW] at h2
          rw [Nat.zero_add] at hbitv
          by_cases hix : index < t.buckets
          · exact hix
          · exfalso
            have hsafe : t.metaAt index = SAFE :=
              (hmrep.2 (by omega)).1 index (by omega) hiW
            rw [hsafe] at hbitv
            exact absurd hbitv (by decide)
      · rw [if_neg hmod] at hsel
        have hieq : (pos + bit) &&& t.bucketMask = index := Option.some.inj hsel
        rw [hb, ← hieq, land_mask _ _ hmask]
        exact Nat.mod_lt _ (by omega)
    have ht' : (t.eraseByIndex index).setMeta index SAFE = t' := heq
    have hbm : t'.bucketMask = (t.eraseByIndex index).bucketMask :=
      (congrArg RawTable.bucketMask ht').symm
    have hdata : t'.data = (t.eraseByIndex index).data :=
      (congrArg RawTable.data ht').symm
    have hctrl : t'.ctrl = (t.eraseByIndex index).ctrl :=
      (congrArg RawTable.ctrl ht').symm
    refine ⟨hbm.trans (erase_bucketMask t index), hdata.trans (erase_data t index),
      (congrArg List.length hctrl).trans (erase_ctrl_length t index),
      @replicaOk_congr K V (t.eraseByIndex index) _ hctrl hbm
        (erase_replicaOk t index hmask hm64 hlen hidx hrep), ?_⟩
    intro j hj hfull
    rw [ctrlAt_congr hctrl j] at hfull ⊢
    by_cases hji : j = index
    · rw [hji] at hfull
      rw [erase_ctrlAt_self_notFull t index (by rw [hlen]; omega)] at hfull
      cases hfull
    · exact erase_ctrlAt_ne t index j hmask hm64 hidx hj hji

/-- What a successful `evict_mod_bucket` does to the control stream and the
buckets. -/
theorem evictModBucket_post {K V : Type} (t : RawTable K V) {m : Nat} (hash : Nat)
    {t' : RawTable K V} {kv : K × V}
    (hmask : t.bucketMask + 1 = 2 ^ m) (hm64 : m ≤ 64)
    (hlen : t.ctrl.length = t.buckets + groupWidth)
    (hmlen : t.meta.length = t.buckets + groupWidth)
    (hrep : t.CtrlReplicaOk) (hmrep : t.MetaReplicaOk)
    (h : t.evictModBucket hash = some (t', kv)) :
    t'.bucketMask = t.bucketMask ∧ t'.data = t.data ∧
    t'.ctrl.length = t.ctrl.length ∧ t'.CtrlReplicaOk ∧
    (∀ j < t.buckets, isFull (t'.ctrlAt j) = true → t'.ctrlAt j = t.ctrlAt j) ∧
    t'.meta.length = t.meta.length ∧ t'.MetaReplicaOk := by
  have hW : groupWidth = 16 := rfl
  have hb : t.buckets = t.bucketMask + 1 := rfl
  unfold RawTable.evictModBucket at h
  cases hfs : (probeSeq t.bucketMask hash).findSome? (fun pos =>
      (RawTable.matchFirst (groupLoad t.meta pos) MODIFIED MODIFIED_TOUCHED).map
        (fun bit => (pos, bit))) with
  | none => rw [hfs] at h; cases h
  | some pb =>
    obtain ⟨pos, bit⟩ := pb
    rw [hfs] at h
    obtain ⟨index, hsel, hbody⟩ := Option.bind_eq_some.mp h
    have hidx : index < t.buckets := by
      by_cases hsafe : isSafe (t.metaAt ((pos + bit) &&& t.bucketMask)) = true
      · rw [if_pos hsafe] at hsel
        have hspec := lowestSetBit_spec hsel
        have hiW : index < groupWidth := by
          have h1 := hspec.1
          rwa [matchEOD_length, groupLoad_length] at h1
        by_cases hbig : groupWidth ≤ t.buckets
        · omega
        · have hbitv : (t.metaAt (0 + index) &&& 0x80 != 0) = true := by
            have h2 := hspec.2
            rwa [matchEOD_getD _ _ (by rw [groupLoad_length]; exact hiW),
              groupLoad_getD _ _ _ hiW] at h2
          rw [Nat.zero_add] at hbitv
          by_cases hix : index < t.buckets
          · exact hix
          · exfalso
            have hsafe2 : t.metaAt index = SAFE :=
              (hmrep.2 (by omega)).1 index (by omega) hiW
            rw [hsafe2] at hbitv
            exact absurd hbitv (by decide)
      · rw [if_neg hsafe] at hsel
        have hieq : (pos + bit) &&& t.bucketMask = index := Option.some.inj hsel
        rw [hb, ← hieq, land_mask _ _ hmask]
        exact Nat.mod_lt _ (by omega)
    exact evictAt_post t index hmask hm64 hlen hmlen hrep hmrep hidx hbody

/-- What `RawTable::insert` guarantees when it succeeds: the new pair sits in
a bucket of the array under control byte `h2(hash)`, and every other full
bucket kept its control byte and its pair. -/
theorem insert_post {K V : Type} (t : RawTable K V) {m : Nat} (hash : Nat)
    (vp : K × V) {t' : RawTable K V} {idx : Nat}
    (hmask : t.bucketMask + 1 = 2 ^ m) (hm64 : m ≤ 64)
    (hlen : t.ctrl.length = t.buckets + groupWidth)
    (hdlen : t.data.length = t.buckets)
    (hrep : t.CtrlReplicaOk) (hmrep : t.MetaReplicaOk)
    (hnf : ∃ i < t.buckets, isFull (t.ctrlAt i) = false)
    (h : t.insert hash vp = some (t', idx)) :
    t'.bucketMask = t.bucketMask ∧ t'.ctrl.length = t.ctrl.length ∧
    t'.data.length = t.data.length ∧ t'.CtrlReplicaOk ∧
    idx < t.buckets ∧ t'.ctrlAt idx = h2 hash ∧ t'.dataAt idx = some vp ∧
    (∀ j < t.buckets, j ≠ idx → t'.dataAt j = t.dataAt j) ∧
    (∀ j < t.buckets, j ≠ idx → isFull (t'.ctrlAt j) = true →
      t'.ctrlAt j = t.ctrlAt j) := by
  have hW : groupWidth = 16 := rfl
  have hb : t.buckets = t.bucketMask + 1 := rfl
  unfold RawTable.insert at h
  obtain ⟨t₀, h0, h1⟩ := Option.bind_eq_some.mp h
  have hP : t₀.bucketMask = t.bucketMask ∧ t₀.data = t.data ∧
      t₀.ctrl.length = t.ctrl.length ∧ t₀.CtrlReplicaOk ∧
      (∀ j < t.buckets, isFull (t₀.ctrlAt j) = true → t₀.ctrlAt j = t.ctrlAt j) := by
    by_cases hgl : (t.growthLeft == 0) = true
    · rw [if_pos hgl] at h0
      exact clearSafeBucket_post t hash hmask hm64 hlen hrep hmrep h0
    · rw [if_neg hgl] at h0
      have ht0 : t = t₀ := Option.some.inj h0
      rw [← ht0]
      exact ⟨rfl, rfl, rfl, hrep, fun j _ _ => rfl⟩
  have hbuck₀ : t₀.buckets = t.buckets := by
    unfold RawTable.buckets
    rw [hP.1]
  have hmask₀ : t₀.bucketMask + 1 = 2 ^ m := by
    rw [hP.1]
    exact hmask
  have hnf₀ : ∃ i < t₀.buckets, isFull (t₀.ctrlAt i) = false := by
    obtain ⟨i0, hi0, hi0f⟩ := hnf
    refine ⟨i0, by omega, ?_⟩
    cases hv : isFull (t₀.ctrlAt i0) with
    | false => rfl
    | true =>
      have heq := hP.2.2.2.2 i0 hi0 hv
      rw [heq] at hv
      rw [hi0f] at hv
      cases hv
  obtain ⟨idx₀, hslot, hg⟩ := Option.map_eq_some'.mp h1
  obtain rfl : idx₀ = idx := congrArg Prod.snd hg
  have hpost := findInsertSlot_post t₀ hash hmask₀ hP.2.2.2.1 hnf₀ hslot
  have hctrl : t'.ctrl = (t₀.ctrl.set idx₀ (h2 hash)).set
      (RawTable.mirrorIdx t₀.bucketMask idx₀) (h2 hash) :=
    (congrArg (fun p : RawTable K V × Nat => p.1.ctrl) hg).symm
  have hctrl' : t'.ctrl = (t₀.setCtrl idx₀ (h2 hash)).ctrl := hctrl
  have hbm : t'.bucketMask = t₀.bucketMask :=
    (congrArg (fun p : RawTable K V × Nat => p.1.bucketMask) hg).symm
  have hdata : t'.data = t₀.data.set idx₀ (some vp) :=
    (congrArg (fun p : RawTable K V × Nat => p.1.data) hg).symm
  have hidxb : idx₀ < t.buckets := by
    have := hpost.1
    omega
  have hidxlen : idx₀ < t₀.ctrl.length := by
    rw [hP.2.2.1, hlen]
    omega
  have hidxdlen : idx₀ < t₀.data.length := by
    rw [congrArg List.length hP.2.1, hdlen]
    omega
  have hmir := mirrorIdx_self_or_ge t₀.bucketMask idx₀ hmask₀ hm64
    (by rw [← hbuck₀] at hidxb; exact hidxb)
  have hlen₀ : t₀.ctrl.length = t₀.buckets + groupWidth := by
    rw [hP.2.2.1, hlen, hbuck₀]
  refine ⟨hbm.trans hP.1, ?_, ?_, ?_, hidxb, ?_, ?_, ?_, ?_⟩
  · rw [hctrl]
    simp only [List.length_set]
    exact hP.2.2.1
  · rw [hdata]
    simp only [List.length_set]
    rw [congrArg List.length hP.2.1]
  · exact @replicaOk_congr K V (t₀.setCtrl idx₀ (h2 hash)) _ hctrl' hbm
      (setCtrl_replicaOk t₀ idx₀ (h2 hash) hmask₀ hm64 hlen₀
        (by rw [hbuck₀]; exact hidxb) hP.2.2.2.1)
  · show t'.ctrl.getD idx₀ 0 = h2 hash
    rw [hctrl]
    exact getD_set_pair t₀.ctrl idx₀ _ (h2 hash) 0 hidxlen
  · show t'.data.getD idx₀ none = some vp
    rw [hdata]
    exact getD_set_self t₀.data (some vp) none hidxdlen
  · intro j hj hne
    show t'.data.getD j none = t.dataAt j
    rw [hdata, getD_set_ne t₀.data (some vp) none (Ne.symm hne)]
    rw [hP.2.1]
    rfl
  · intro j hj hne hfull
    have hjm : j ≠ RawTable.mirrorIdx t₀.bucketMask idx₀ := by
      rcases hmir with hmm | hmm
      · omega
      · omega
    have hstep : t'.ctrlAt j = t₀.ctrlAt j := by
      show t'.ctrl.getD j 0 = t₀.ctrlAt j
      rw [hctrl]
      exact getD_set_pair_other t₀.ctrl idx₀ _ j (h2 hash) 0 (Ne.symm hne) (Ne.symm hjm)
    rw [hstep] at hfull ⊢
    exact hP.2.2.2.2 j hj hfull

/-! ## The hash-index operations -/

theorem touchAt_ctrl {K V : Type} (t : RawTable K V) (index : Nat) :
    (t.touchAt index).ctrl = t.ctrl := by
  show ((if isSafe (t.metaAt index) = true then { t with modCounter := incr t.modCounter }
      else t).setMeta index MODIFIED_TOUCHED).ctrl = t.ctrl
  split <;> rfl

theorem touchAt_data {K V : Type} (t : RawTable K V) (index : Nat) :
    (t.touchAt index).data = t.data := by
  show ((if isSafe (t.metaAt index) = true then { t with modCounter := incr t.modCounter }
      else t).setMeta index MODIFIED_TOUCHED).data = t.data
  split <;> rfl

theorem touchAt_bucketMask {K V : Type} (t : RawTable K V) (index : Nat) :
    (t.touchAt index).bucketMask = t.bucketMask := by
  show ((if isSafe (t.metaAt index) = true then { t with modCounter := incr t.modCounter }
      else t).setMeta index MODIFIED_TOUCHED).bucketMask = t.bucketMask
  split <;> rfl

theorem findMut_eq_some {K V : Type} [DecidableEq K] (t : RawTable K V) (hash : Nat)
    (k : K) {index : Nat} (h : t.findIndex hash k = some index) :
    t.findMut hash k = (some index, t.touchAt index) := by
  unfold RawTable.findMut
  rw [h]

theorem findMut_eq_none {K V : Type} [DecidableEq K] (t : RawTable K V) (hash : Nat)
    (k : K) (h : t.findIndex hash k = none) :
    t.findMut hash k = (none, t) := by
  unfold RawTable.findMut
  rw [h]

theorem find_eq_some {K V : Type} [DecidableEq K] (t : RawTable K V) (hash : Nat)
    (k : K) {index : Nat} (h : t.findIndex hash k = some index) :
    t.find hash k = (some index,
      if isSafe (t.metaAt index) = true then t.setMeta index SAFE_TOUCHED else t) := by
  unfold RawTable.find
  rw [h]

theorem replaceAt_post {K V : Type} [DecidableEq K] (s : HashIndex K V) (v : V)
    (t' : RawTable K V) (index : Nat) {ret : Option V} {s' : HashIndex K V}
    (h : s.replaceAt v t' index = some (ret, s')) :
    ∃ kv0 : K × V, t'.dataAt index = some kv0 ∧
      s'.hashFn = s.hashFn ∧
      s'.table.ctrl = t'.ctrl ∧ s'.table.bucketMask = t'.bucketMask ∧
      s'.table.data = t'.data.set index (some (kv0.1, v)) := by
  unfold HashIndex.replaceAt at h
  cases hdd : t'.dataAt index with
  | none =>
    rw [hdd] at h
    exact Option.noConfusion h
  | some kv0 =>
    rw [hdd] at h
    have hpair : (some kv0.2, ({ s with table :=
        { t' with data := t'.data.set index (some (kv0.1, v)) } } : HashIndex K V))
        = (ret, s') := Option.some.inj h
    injection hpair with hret hs'
    exact ⟨kv0, rfl, (congrArg HashIndex.hashFn hs').symm,
      (congrArg (fun z : HashIndex K V => z.table.ctrl) hs').symm,
      (congrArg (fun z : HashIndex K V => z.table.bucketMask) hs').symm,
      (congrArg (fun z : HashIndex K V => z.table.data) hs').symm⟩

/-- What the miss arm of `HashIndex::insert` guarantees when it succeeds: the
new pair is resident under control byte `h2`, and every other full bucket kept
its control byte and pair (one bucket may additionally have been evicted or
reclaimed, becoming non-full). -/
theorem insertMiss_post {K V : Type} [DecidableEq K] (s : HashIndex K V) (k : K)
    (v : V) (t' : RawTable K V) {m : Nat} {ret : Option V} {s' : HashIndex K V}
    (hmask : t'.bucketMask + 1 = 2 ^ m) (hm64 : m ≤ 64)
    (hlen : t'.ctrl.length = t'.buckets + groupWidth)
    (hmlen : t'.meta.length = t'.buckets + groupWidth)
    (hdlen : t'.data.length = t'.buckets)
    (hrep : t'.CtrlReplicaOk) (hmrep : t'.MetaReplicaOk)
    (hnf : ∃ i < t'.buckets, isFull (t'.ctrlAt i) = false)
    (h : s.insertMiss k v t' = some (ret, s')) :
    s'.hashFn = s.hashFn ∧ s'.table.bucketMask = t'.bucketMask ∧
    s'.table.ctrl.length = t'.ctrl.length ∧ s'.table.data.length = t'.data.length ∧
    s'.table.CtrlReplicaOk ∧
    ∃ idx < t'.buckets, s'.table.ctrlAt idx = h2 (s.hashFn k) ∧
      s'.table.dataAt idx = some (k, v) ∧
      (∀ j < t'.buckets, j ≠ idx → s'.table.dataAt j = t'.dataAt j) ∧
      (∀ j < t'.buckets, j ≠ idx → isFull (s'.table.ctrlAt j) = true →
        s'.table.ctrlAt j = t'.ctrlAt j) := by
  unfold HashIndex.insertMiss at h
  by_cases hth : t'.aboveModThreshold = true
  · rw [if_pos hth] at h
    cases hev : t'.evictModBucket (s.hashFn k) with
    | none =>
      rw [hev] at h
      exact Option.noConfusion h
    | some pr =>
      obtain ⟨t₁, kv⟩ := pr
      rw [hev] at h
      obtain ⟨p, hins, hmap⟩ := Option.map_eq_some'.mp h
      obtain ⟨tI, idxI⟩ := p
      have htab : tI = s'.table :=
        congrArg (fun z : Option V × HashIndex K V => z.2.table) hmap
      have hhf : s'.hashFn = s.hashFn :=
        (congrArg (fun z : Option V × HashIndex K V => z.2.hashFn) hmap).symm
      have hev' := evictModBucket_post t' (s.hashFn k) hmask hm64 hlen hmlen hrep hmrep hev
      have hmask₁ : t₁.bucketMask + 1 = 2 ^ m := by
        rw [hev'.1]
        exact hmask
      have hbuck₁ : t₁.buckets = t'.buckets := by
        unfold RawTable.buckets
        rw [hev'.1]
      have hlen₁ : t₁.ctrl.length = t₁.buckets + groupWidth := by
        rw [hev'.2.2.1, hbuck₁]
        exact hlen
      have hdlen₁ : t₁.data.length = t₁.buckets := by
        rw [congrArg List.length hev'.2.1, hbuck₁]
        exact hdlen
      have hnf₁ : ∃ i < t₁.buckets, isFull (t₁.ctrlAt i) = false := by
        obtain ⟨i0, hi0, hi0f⟩ := hnf
        refine ⟨i0, by omega, ?_⟩
        cases hv : isFull (t₁.ctrlAt i0) with
        | false => rfl
        | true =>
          have heq := hev'.2.2.2.2.1 i0 hi0 hv
          rw [heq] at hv
          rw [hi0f] at hv
          cases hv
      have hpost := insert_post t₁ (s.hashFn k) (k, v) hmask₁ hm64 hlen₁ hdlen₁
        hev'.2.2.2.1 hev'.2.2.2.2.2.2 hnf₁ hins
      obtain ⟨hpbm, hpclen, hpdlen, hprep, hpidx, hpc, hpd, hpdo, hpco⟩ := hpost
      rw [← htab]
      refine ⟨hhf, hpbm.trans hev'.1, hpclen.trans hev'.2.2.1,
        hpdlen.trans (congrArg List.length hev'.2.1), hprep,
        idxI, by omega, hpc, hpd, ?_, ?_⟩
      · intro j hj hne
        exact (hpdo j (by omega) hne).trans (dataAt_congr hev'.2.1 j)
      · intro j hj hne hfull
        have step1 := hpco j (by omega) hne hfull
        rw [step1] at hfull
        exact step1.trans (hev'.2.2.2.2.1 j hj hfull)
  · rw [if_neg hth] at h
    obtain ⟨p, hins, hmap⟩ := Option.map_eq_some'.mp h
    obtain ⟨tI, idxI⟩ := p
    have htab : tI = s'.table :=
      congrArg (fun z : Option V × HashIndex K V => z.2.table) hmap
    have hhf : s'.hashFn = s.hashFn :=
      (congrArg (fun z : Option V × HashIndex K V => z.2.hashFn) hmap).symm
    have hpost := insert_post t' (s.hashFn k) (k, v) hmask hm64 hlen hdlen hrep hmrep hnf hins
    obtain ⟨hpbm, hpclen, hpdlen, hprep, hpidx, hpc, hpd, hpdo, hpco⟩ := hpost
    rw [← htab]
    exact ⟨hhf, hpbm, hpclen, hpdlen, hprep, idxI, hpidx, hpc, hpd, hpdo, hpco⟩

theorem insertOp_absent_post {K V : Type} [DecidableEq K] (s : HashIndex K V)
    (k : K) (v : V) {m : Nat} {ret : Option V} {s' : HashIndex K V}
    (hmask : s.table.bucketMask + 1 = 2 ^ m) (hm64 : m ≤ 64)
    (hlen : s.table.ctrl.length = s.table.buckets + groupWidth)
    (hmlen : s.table.meta.length = s.table.buckets + groupWidth)
    (hdlen : s.table.data.length = s.table.buckets)
    (hrep : s.table.CtrlReplicaOk) (hmrep : s.table.MetaReplicaOk)
    (hnf : ∃ i < s.table.buckets, isFull (s.table.ctrlAt i) = false)
    (hfi : s.table.findIndex (s.hashFn k) k = none)
    (h : s.insertOp k v = some (ret, s')) :
    s'.hashFn = s.hashFn ∧ s'.table.bucketMask = s.table.bucketMask ∧
    s'.table.ctrl.length = s.table.ctrl.length ∧
    s'.table.data.length = s.table.data.length ∧
    s'.table.CtrlReplicaOk ∧
    ∃ idx < s.table.buckets, s'.table.ctrlAt idx = h2 (s.hashFn k) ∧
      s'.table.dataAt idx = some (k, v) ∧
      (∀ j < s.table.buckets, j ≠ idx → s'.table.dataAt j = s.table.dataAt j) ∧
      (∀ j < s.table.buckets, j ≠ idx → isFull (s'.table.ctrlAt j) = true →
        s'.table.ctrlAt j = s.table.ctrlAt j) := by
  unfold HashIndex.insertOp at h
  rw [findMut_eq_none s.table (s.hashFn k) k hfi] at h
  have h' : s.insertMiss k v s.table = some (ret, s') := h
  exact insertMiss_post s k v s.table hmask hm64 hlen hmlen hdlen hrep hmrep hnf h'

theorem insertOp_resident_post {K V : Type} [DecidableEq K] (s : HashIndex K V)
    (k : K) (v : V) {index : Nat} {ret : Option V} {s' : HashIndex K V}
    (hfi : s.table.findIndex (s.hashFn k) k = some index)
    (h : s.insertOp k v = some (ret, s')) :
    ∃ kv0 : K × V, s.table.dataAt index = some kv0 ∧
      s'.hashFn = s.hashFn ∧ s'.table.ctrl = s.table.ctrl ∧
      s'.table.bucketMask = s.table.bucketMask ∧
      s'.table.data = s.table.data.set index (some (kv0.1, v)) := by
  unfold HashIndex.insertOp at h
  rw [findMut_eq_some s.table (s.hashFn k) k hfi] at h
  have h' : s.replaceAt v (s.table.touchAt index) index = some (ret, s') := h
  obtain ⟨kv0, hdd, hhf, hctrl, hbm, hdata⟩ := replaceAt_post s v _ index h'
  refine ⟨kv0, (dataAt_congr (touchAt_data s.table index) index).symm.trans hdd, hhf,
    hctrl.trans (touchAt_ctrl s.table index),
    hbm.trans (touchAt_bucketMask s.table index), ?_⟩
  rw [hdata, touchAt_data s.table index]

theorem find_eq_none {K V : Type} [DecidableEq K] (t : RawTable K V) (hash : Nat)
    (k : K) (h : t.findIndex hash k = none) : t.find hash k = (none, t) := by
  unfold RawTable.find
  rw [h]

/-- The hit path of `HashOps::get`: a probe hit on a bucket holding `(k, v)`
returns `Some v`. -/
theorem get_hit {K V : Type} [DecidableEq K] (s' : HashIndex K V) (k : K) (v : V)
    {index : Nat}
    (hfind : s'.table.findIndex (s'.hashFn k) k = some index)
    (hd : s'.table.dataAt index = some (k, v)) :
    ∃ s'' : HashIndex K V, s'.get k = some (some v, s'') := by
  refine ⟨{ s' with table := if isSafe (s'.table.metaAt index) = true then
      s'.table.setMeta index SAFE_TOUCHED else s'.table }, ?_⟩
  unfold HashIndex.get
  rw [find_eq_some s'.table (s'.hashFn k) k hfind]
  have hTGd : (if isSafe (s'.table.metaAt index) = true then
      s'.table.setMeta index SAFE_TOUCHED else s'.table).dataAt index = some (k, v) := by
    split
    · exact (dataAt_congr (rfl :
        (s'.table.setMeta index SAFE_TOUCHED).data = s'.table.data) index).trans hd
    · exact hd
  generalize hTG : (if isSafe (s'.table.metaAt index) = true then
      s'.table.setMeta index SAFE_TOUCHED else s'.table) = TG at hTGd ⊢
  show some ((TG.dataAt index).map (fun kv => kv.2), { s' with table := TG })
      = some (some v, { s' with table := TG })
  rw [hTGd]
  rfl

/-- After an in-place replacement of the resident value under key `k`, the
probe walk still finds that bucket and `get` returns the new value. -/
theorem resident_roundtrip {K V : Type} [DecidableEq K] (s s' : HashIndex K V)
    (k : K) (w : V) {m index : Nat} {kv0 : K × V}
    (hmask : s.table.bucketMask + 1 = 2 ^ m) (hm1 : 1 ≤ s.table.bucketMask)
    (hdlen : s.table.data.length = s.table.buckets)
    (hrep : s.table.CtrlReplicaOk)
    (huniq : ∀ i < s.table.buckets, ∀ j < s.table.buckets,
      isFull (s.table.ctrlAt i) = true → isFull (s.table.ctrlAt j) = true →
      (s.table.dataAt i).map Prod.fst = (s.table.dataAt j).map Prod.fst →
      (s.table.dataAt i).isSome = true → i = j)
    (hfi : s.table.findIndex (s.hashFn k) k = some index)
    (hdd : s.table.dataAt index = some kv0)
    (hhf : s'.hashFn = s.hashFn)
    (hctrl : s'.table.ctrl = s.table.ctrl)
    (hbm : s'.table.bucketMask = s.table.bucketMask)
    (hdata : s'.table.data = s.table.data.set index (some (kv0.1, w))) :
    ∃ s'' : HashIndex K V, s'.get k = some (some w, s'') := by
  obtain ⟨kv0', hib, hic, hid, hik⟩ := findIndex_sound s.table (s.hashFn k) k hmask hrep hfi
  have hkv : kv0' = kv0 := Option.some.inj (hid.symm.trans hdd)
  have hk0 : kv0.1 = k := by
    rw [← hkv]
    exact hik
  have hmask' : s'.table.bucketMask + 1 = 2 ^ m := by
    rw [hbm]
    exact hmask
  have hm1' : 1 ≤ s'.table.bucketMask := by
    rw [hbm]
    exact hm1
  have hrep' : s'.table.CtrlReplicaOk := replicaOk_congr hctrl hbm hrep
  have hbuck' : s'.table.buckets = s.table.buckets := by
    unfold RawTable.buckets
    rw [hbm]
  have hi' : index < s'.table.buckets := by omega
  have hc' : s'.table.ctrlAt index = h2 (s.hashFn k) :=
    (ctrlAt_congr hctrl index).trans hic
  have hd' : s'.table.dataAt index = some (k, w) := by
    show s'.table.data.getD index none = some (k, w)
    rw [hdata, getD_set_self s.table.data _ none (by rw [hdlen]; exact hib), hk0]
  have huniq' : ∀ j < s'.table.buckets, s'.table.ctrlAt j = h2 (s.hashFn k) →
      ∀ kvj : K × V, s'.table.dataAt j = some kvj → kvj.1 = k → j = index := by
    intro j hj hcj kvj hdj hkj
    by_cases hji : j = index
    · exact hji
    · have hjb : j < s.table.buckets := by omega
      have hdj0 : s.table.dataAt j = some kvj := by
        have hstep : s'.table.dataAt j = s.table.dataAt j := by
          show s'.table.data.getD j none = s.table.dataAt j
          rw [hdata, getD_set_ne s.table.data _ none (Ne.symm hji)]
          rfl
        rw [← hstep]
        exact hdj
      have hcj0 : s.table.ctrlAt j = h2 (s.hashFn k) :=
        (ctrlAt_congr hctrl j).symm.trans hcj
      have hfj : isFull (s.table.ctrlAt j) = true := by
        rw [hcj0]
        exact isFull_h2 _
      have hfidx : isFull (s.table.ctrlAt index) = true := by
        rw [hic]
        exact isFull_h2 _
      refine huniq j hjb index hib hfj hfidx ?_ ?_
      · rw [hdj0, hid]
        show some kvj.1 = some kv0'.1
        rw [hkj, hik]
      · rw [hdj0]
        rfl
  have hfind : s'.table.findIndex (s.hashFn k) k = some index :=
    findIndex_eq s'.table (s.hashFn k) k hmask' hm1' hrep' hi' hc' hd' rfl huniq'
  exact get_hit s' k w (by rw [congrFun hhf k]; exact hfind) hd'

/-- After a fresh insertion of `(k, w)` into a table where `k` was absent, the
probe walk finds the new bucket and `get` returns `Some w`. -/
theorem absent_roundtrip {K V : Type} [DecidableEq K] (s s' : HashIndex K V)
    (k : K) (w : V) {m idx : Nat}
    (hmask : s.table.bucketMask + 1 = 2 ^ m) (hm1 : 1 ≤ s.table.bucketMask)
    (hrep : s.table.CtrlReplicaOk)
    (hfi : s.table.findIndex (s.hashFn k) k = none)
    (hhf : s'.hashFn = s.hashFn)
    (hbm : s'.table.bucketMask = s.table.bucketMask)
    (hrep' : s'.table.CtrlReplicaOk)
    (hidxb : idx < s.table.buckets)
    (hcidx : s'.table.ctrlAt idx = h2 (s.hashFn k))
    (hdidx : s'.table.dataAt idx = some (k, w))
    (hdother : ∀ j < s.table.buckets, j ≠ idx → s'.table.dataAt j = s.table.dataAt j)
    (hcother : ∀ j < s.table.buckets, j ≠ idx → isFull (s'.table.ctrlAt j) = true →
      s'.table.ctrlAt j = s.table.ctrlAt j) :
    ∃ s'' : HashIndex K V, s'.get k = some (some w, s'') := by
  have hmask' : s'.table.bucketMask + 1 = 2 ^ m := by
    rw [hbm]
    exact hmask
  have hm1' : 1 ≤ s'.table.bucketMask := by
    rw [hbm]
    exact hm1
  have hbuck' : s'.table.buckets = s.table.buckets := by
    unfold RawTable.buckets
    rw [hbm]
  have hi' : idx < s'.table.buckets := by omega
  have huniq' : ∀ j < s'.table.buckets, s'.table.ctrlAt j = h2 (s.hashFn k) →
      ∀ kvj : K × V, s'.table.dataAt j = some kvj → kvj.1 = k → j = idx := by
    intro j hj hcj kvj hdj hkj
    by_cases hji : j = idx
    · exact hji
    · exfalso
      have hjb : j < s.table.buckets := by omega
      have hfj : isFull (s'.table.ctrlAt j) = true := by
        rw [hcj]
        exact isFull_h2 _
      have hceq := hcother j hjb hji hfj
      have hdeq := hdother j hjb hji
      exact findIndex_none s.table (s.hashFn k) k hmask hm1 hrep hfi j hjb
        (hceq.symm.trans hcj) kvj (hdeq.symm.trans hdj) hkj
  have hfind : s'.table.findIndex (s.hashFn k) k = some idx :=
    findIndex_eq s'.table (s.hashFn k) k hmask' hm1' hrep' hi' hcidx hdidx rfl huniq'
  exact get_hit s' k w (by rw [congrFun hhf k]; exact hfind) hdidx

/-- C1: for every well-formed hash index, after a successful `put(k, v)` a
subsequent `get(&k)` returns `Some(v)` — immediately after the `put` the entry
is resident (replaced in place on a hit, freshly inserted on a miss, even when
the `put` spilled a dirty bucket to the durable store first), and the probe
walk finds exactly that bucket. -/
theorem hash_put_get_roundtrip {K V : Type} [DecidableEq K] (s : HashIndex K V)
    (k : K) (v : V) {m : Nat} {s' : HashIndex K V}
    (hwf : s.WF m) (hput : s.put k v = some s') :
    ∃ s'' : HashIndex K V, s'.get k = some (some v, s'') := by
  obtain ⟨hmask, hm1, hm64, hlen, hmlen, hdlen, hrep, hmrep, hnf, huniq⟩ := hwf
  unfold HashIndex.put at hput
  obtain ⟨pr, hio, hsnd⟩ := Option.map_eq_some'.mp hput
  obtain ⟨ret, s₁⟩ := pr
  obtain rfl : s' = s₁ := hsnd.symm
  cases hfi : s.table.findIndex (s.hashFn k) k with
  | some index =>
    obtain ⟨kv0, hdd, hhf, hctrl, hbm, hdata⟩ := insertOp_resident_post s k v hfi hio
    exact resident_roundtrip s s' k v hmask hm1 hdlen hrep huniq hfi hdd hhf hctrl hbm hdata
  | none =>
    obtain ⟨hhf, hbm, hclen, hdlen', hrep', idx, hidxb, hcidx, hdidx, hdother, hcother⟩ :=
      insertOp_absent_post s k v hmask hm64 hlen hmlen hdlen hrep hmrep hnf hfi hio
    exact absent_roundtrip s s' k v hmask hm1 hrep hfi hhf hbm hrep' hidxb hcidx hdidx
      hdother hcother

theorem touchAt_modCounter {K V : Type} (t : RawTable K V) (index : Nat) :
    (t.touchAt index).modCounter =
      if isSafe (t.metaAt index) = true then incr t.modCounter else t.modCounter := by
  show ((if isSafe (t.metaAt index) = true then { t with modCounter := incr t.modCounter }
      else t).setMeta index MODIFIED_TOUCHED).modCounter = _
  split <;> rfl

theorem touchAt_modLimit {K V : Type} (t : RawTable K V) (index : Nat) :
    (t.touchAt index).modLimit = t.modLimit := by
  show ((if isSafe (t.metaAt index) = true then { t with modCounter := incr t.modCounter }
      else t).setMeta index MODIFIED_TOUCHED).modLimit = t.modLimit
  split <;> rfl

theorem store_get_ok {K V : Type} [DecidableEq K] (st : RawStore K V) (k : K)
    (h : st.getOk = true) : st.get k = .ok (st.lookup k) := by
  unfold RawStore.get RawStore.lookup
  rw [if_pos h]

/-- Under the modification threshold and with growth left, the miss arm of
`HashIndex::insert` cannot hit a panic path. -/
theorem insertOp_total {K V : Type} [DecidableEq K] (s : HashIndex K V) (k : K)
    (v : V) {m : Nat}
    (hmask : s.table.bucketMask + 1 = 2 ^ m) (hm1 : 1 ≤ s.table.bucketMask)
    (hrep : s.table.CtrlReplicaOk)
    (hnf : ∃ i < s.table.buckets, isFull (s.table.ctrlAt i) = false)
    (hfi : s.table.findIndex (s.hashFn k) k = none)
    (hth : s.table.aboveModThreshold = false)
    (hgl : (s.table.growthLeft == 0) = false) :
    (s.insertOp k v).isSome = true := by
  unfold HashIndex.insertOp
  rw [findMut_eq_none s.table (s.hashFn k) k hfi]
  show (s.insertMiss k v s.table).isSome = true
  unfold HashIndex.insertMiss
  rw [hth, if_neg Bool.false_ne_true]
  have hins : (s.table.insert (s.hashFn k) (k, v)).isSome = true := by
    unfold RawTable.insert
    rw [hgl, if_neg Bool.false_ne_true, Option.some_bind]
    simp only []
    obtain ⟨idx, hslot⟩ := Option.isSome_iff_exists.mp
      (findInsertSlot_isSome s.table (s.hashFn k) hmask hm1 hrep hnf)
    rw [hslot]
    rfl
  obtain ⟨pr, hpr⟩ := Option.isSome_iff_exists.mp hins
  rw [hpr]
  rfl

/-- C2: on a well-formed state below its modification threshold, over a store
whose reads succeed, `rmw(&k, f)` returns `false` exactly when `k` is absent
from both the in-memory table and the durable store; otherwise it returns
`true` and a subsequent `get(&k)` observes `f` applied to the old value. -/
theorem rmw_false_iff_absent {K V : Type} [DecidableEq K] (s : HashIndex K V)
    (k : K) (f : V → V) {m : Nat} (hwf : s.WF m)
    (hget : s.store.getOk = true)
    (hth : s.table.modCounter + 1 < s.table.modLimit)
    (hcnt : s.table.modCounter + 1 < U64)
    (hgl : (s.table.growthLeft == 0) = false) :
    ∃ ret : Bool, ∃ s' : HashIndex K V, s.rmw k f = some (ret, s') ∧
      ((ret = false) ↔ s.observe k = none) ∧
      (∀ v₀ : V, s.observe k = some v₀ → ret = true ∧
        ∃ s'' : HashIndex K V, s'.get k = some (some (f v₀), s'')) := by
  obtain ⟨hmask, hm1, hm64, hlen, hmlen, hdlen, hrep, hmrep, hnf, huniq⟩ := hwf
  cases hfi : s.table.findIndex (s.hashFn k) k with
  | some index =>
    obtain ⟨kv0', hib, hic, hid, hik⟩ := findIndex_sound s.table (s.hashFn k) k hmask hrep hfi
    have htd : (s.table.touchAt index).dataAt index = some kv0' :=
      (dataAt_congr (touchAt_data s.table index) index).trans hid
    set T1 : RawTable K V := { s.table.touchAt index with
      data := (s.table.touchAt index).data.set index (some (kv0'.1, f kv0'.2)) } with hT1def
    have hcnt' : (s.table.touchAt index).modCounter ≤ s.table.modCounter + 1 := by
      rw [touchAt_modCounter s.table index]
      by_cases hs : isSafe (s.table.metaAt index) = true
      · rw [if_pos hs, incr_eq_succ hcnt]
      · rw [if_neg hs]
        omega
    have hml : T1.modLimit = s.table.modLimit := touchAt_modLimit s.table index
    have hmc : T1.modCounter ≤ s.table.modCounter + 1 := hcnt'
    have hthf : T1.aboveModThreshold = false := by
      unfold RawTable.aboveModThreshold
      apply decide_eq_false
      intro hcontra
      rw [hml] at hcontra
      omega
    have hrmw : s.rmw k f = some (true, { s with table := T1 }) := by
      unfold HashIndex.rmw
      rw [findMut_eq_some s.table (s.hashFn k) k hfi]
      show s.rmwHit k f (s.table.touchAt index) index = some (true, { s with table := T1 })
      unfold HashIndex.rmwHit
      rw [htd]
      show (if T1.aboveModThreshold = true then s.rmwEvict k T1
        else some (true, { s with table := T1 })) = some (true, { s with table := T1 })
      rw [hthf, if_neg Bool.false_ne_true]
    have hobs : s.observe k = some kv0'.2 := by
      unfold HashIndex.observe
      rw [hfi]
      show (s.table.dataAt index).map (fun kv => kv.2) = some kv0'.2
      rw [hid]
      rfl
    refine ⟨true, { s with table := T1 }, hrmw, by rw [hobs]; simp, ?_⟩
    intro w hw
    rw [hobs] at hw
    obtain rfl : kv0'.2 = w := Option.some.inj hw
    refine ⟨rfl, ?_⟩
    refine resident_roundtrip s { s with table := T1 } k (f kv0'.2)
      hmask hm1 hdlen hrep huniq hfi hid rfl ?_ ?_ ?_
    · exact (show ({ s with table := T1 } : HashIndex K V).table.ctrl
        = (s.table.touchAt index).ctrl from rfl).trans (touchAt_ctrl s.table index)
    · exact (show ({ s with table := T1 } : HashIndex K V).table.bucketMask
        = (s.table.touchAt index).bucketMask from rfl).trans (touchAt_bucketMask s.table index)
    · exact (show ({ s with table := T1 } : HashIndex K V).table.data
        = (s.table.touchAt index).data.set index (some (kv0'.1, f kv0'.2)) from rfl).trans
        (by rw [touchAt_data s.table index])
  | none =>
    have hfm := findMut_eq_none s.table (s.hashFn k) k hfi
    have hsg : s.store.get k = .ok (s.store.lookup k) := store_get_ok s.store k hget
    cases hlk : s.store.lookup k with
    | some v₀ =>
      have hthB : s.table.aboveModThreshold = false := by
        unfold RawTable.aboveModThreshold
        apply decide_eq_false
        omega
      have htot := insertOp_total s k (f v₀) hmask hm1 hrep hnf hfi hthB hgl
      obtain ⟨pr, hio⟩ := Option.isSome_iff_exists.mp htot
      obtain ⟨ret₂, s₂⟩ := pr
      have hrmw : s.rmw k f = some (true, s₂) := by
        unfold HashIndex.rmw
        rw [hfm, show s.store.get k = Except.ok (some v₀) from
          hsg.trans (congrArg Except.ok hlk)]
        show (HashIndex.insertOp { s with table := s.table } k (f v₀)).map
          (fun p => (true, p.2)) = some (true, s₂)
        have hio' : HashIndex.insertOp { s with table := s.table } k (f v₀)
          = some (ret₂, s₂) := hio
        rw [hio']
        rfl
      have hobs : s.observe k = some v₀ := by
        unfold HashIndex.observe
        rw [hfi]
        exact hlk
      refine ⟨true, s₂, hrmw, by rw [hobs]; simp, ?_⟩
      intro w hw
      rw [hobs] at hw
      obtain rfl : v₀ = w := Option.some.inj hw
      refine ⟨rfl, ?_⟩
      obtain ⟨hhf, hbm, hclen, hdlen', hrep', idx, hidxb, hcidx, hdidx, hdother, hcother⟩ :=
        insertOp_absent_post s k (f v₀) hmask hm64 hlen hmlen hdlen hrep hmrep hnf hfi hio
      exact absent_roundtrip s s₂ k (f v₀) hmask hm1 hrep hfi hhf hbm hrep' hidxb hcidx
        hdidx hdother hcother
    | none =>
      have hrmw : s.rmw k f = some (false, { s with table := s.table }) := by
        unfold HashIndex.rmw
        rw [hfm, show s.store.get k = Except.ok (none : Option V) from
          hsg.trans (congrArg Except.ok hlk)]
      have hobs : s.observe k = none := by
        unfold HashIndex.observe
        rw [hfi]
        exact hlk
      refine ⟨false, { s with table := s.table }, hrmw, by rw [hobs]; simp, ?_⟩
      intro w hw
      rw [hobs] at hw
      exact Option.noConfusion hw

/-- Witness for C2: `rmw(&3, |v| v += 5)` on the fresh 8-bucket index with
`mod_limit = 10`. -/
theorem rmw_false_iff_absent_witness :
    cowIdx4.WF 3 ∧ cowIdx4.store.getOk = true ∧
    cowIdx4.table.modCounter + 1 < cowIdx4.table.modLimit ∧
    cowIdx4.table.modCounter + 1 < U64 ∧
    (cowIdx4.table.growthLeft == 0) = false ∧
    (∃ ret : Bool, ∃ s' : HashIndex Nat Nat,
      cowIdx4.rmw 3 (fun v => v + 5) = some (ret, s') ∧
      ((ret = false) ↔ cowIdx4.observe 3 = none) ∧
      (∀ v₀ : Nat, cowIdx4.observe 3 = some v₀ → ret = true ∧
        ∃ s'' : HashIndex Nat Nat, s'.get 3 = some (some (v₀ + 5), s''))) := by
  have hwf : cowIdx4.WF 3 := by
    refine ⟨by decide, by decide, by decide, by decide, by decide, by decide,
      by decide, by decide, ⟨0, by decide, by decide⟩, ?_⟩
    intro i hi j hj hfi hfj hmap hsome
    have hi8 : i < 8 := hi
    have hall : ∀ i' < 8, isFull (cowIdx4.table.ctrlAt i') = false := by decide
    rw [hall i hi8] at hfi
    cases hfi
  exact ⟨hwf, by decide, by decide, by decide, by decide,
    rmw_false_iff_absent cowIdx4 3 (fun v => v + 5) hwf (by decide) (by decide)
      (by decide) (by decide)⟩

/-- Witness for C1: `put(3, 7); get(&3)` on the fresh lazy 8-bucket index. -/
theorem hash_put_get_roundtrip_witness :
    lazyIdx4.WF 3 ∧ lazyIdx4.put 3 7 = some ((lazyIdx4.put 3 7).getD lazyIdx4) ∧
    ∃ s'' : HashIndex Nat Nat,
      ((lazyIdx4.put 3 7).getD lazyIdx4).get 3 = some (some 7, s'') := by
  have hwf : lazyIdx4.WF 3 := by
    refine ⟨by decide, by decide, by decide, by decide, by decide, by decide,
      by decide, by decide, ⟨0, by decide, by decide⟩, ?_⟩
    intro i hi j hj hfi hfj hmap hsome
    have hi8 : i < 8 := hi
    have hall : ∀ i' < 8, isFull (lazyIdx4.table.ctrlAt i') = false := by decide
    rw [hall i hi8] at hfi
    cases hfi
  exact ⟨hwf, rfl, hash_put_get_roundtrip lazyIdx4 3 7 hwf rfl⟩

end BrittMarie
